import Mathlib

/-!
# Verification of the outline aggregate (`TemplateBook`) and its codecs

Shallow embedding of the repository's core:

* `src/domain/model/node.rs` — `NodeType`, `TemplateNode`
* `src/domain/model/book.rs` — `TemplateBook` and its operations
* `src/application/eject.rs` — export/import tree codec
* `src/interface/mcp.rs`     — hierarchical numbering and reference resolution

Modelling conventions:

* `NodeId` (a random v4 UUID in the source) is modelled as `Nat`.  Fresh ids
  are supplied by the caller (theorems assume freshness where the source
  relies on UUID uniqueness); the import codec threads a counter.
* `HashMap<NodeId, TemplateNode>` is modelled as an association list
  `List (Nat × TemplateNode)` with `insert` replacing an existing binding in
  place (appending otherwise) and with lookup on the first matching key.
* `u8` arithmetic is explicit: `saturating_add`/`saturating_sub` become
  `min (· + ·) 255` / truncated `Nat` subtraction, and the one unchecked
  `u8` addition in `add_node` is taken modulo 256 (release semantics).
* Source loops that are unbounded on corrupt data (`is_descendant_of`,
  descendant collection, DFS) are given explicit fuel; the fuel chosen at
  each call site is large enough that the model agrees with the source on
  every acyclic aggregate, which is the only case the claims quantify over
  (`depth_of` needs no fuel: the source itself caps the climb at 255).
-/

set_option maxRecDepth 100000

namespace Outline

/-- Node type tag (`node.rs`): `Section` or `Content`. -/
inductive NodeType : Type where
  | Section : NodeType
  | Content : NodeType
deriving DecidableEq, Repr

/-- A tree node (`node.rs::TemplateNode`). -/
structure TemplateNode : Type where
  id : Nat
  parent : Option Nat
  children : List Nat
  title : String
  body : Option String
  node_type : NodeType
  placeholder : Option String
deriving DecidableEq, Repr

namespace TemplateNode

/-- `TemplateNode::new`: fresh node with no children, no body, no placeholder. -/
def new (id : Nat) (parent : Option Nat) (title : String) (node_type : NodeType) :
    TemplateNode :=
  { id := id, parent := parent, children := [], title := title,
    body := none, node_type := node_type, placeholder := placeholder_init }
where
  /-- placeholder starts out absent -/
  placeholder_init : Option String := none

def set_title (n : TemplateNode) (t : String) : TemplateNode := { n with title := t }

def set_body (n : TemplateNode) (b : Option String) : TemplateNode := { n with body := b }

def set_node_type (n : TemplateNode) (t : NodeType) : TemplateNode := { n with node_type := t }

def set_placeholder (n : TemplateNode) (p : Option String) : TemplateNode :=
  { n with placeholder := p }

def set_parent (n : TemplateNode) (p : Option Nat) : TemplateNode := { n with parent := p }

/-- `TemplateNode::add_child`: insert at `min position len` (clamped). -/
def add_child (n : TemplateNode) (child_id : Nat) (position : Nat) : TemplateNode :=
  { n with children := n.children.insertIdx (min position n.children.length) child_id }

/-- `TemplateNode::remove_child`: retain all children other than `child_id`. -/
def remove_child (n : TemplateNode) (child_id : Nat) : TemplateNode :=
  { n with children := n.children.filter (fun i => i ≠ child_id) }

end TemplateNode

/-- The node map: association-list model of `HashMap<NodeId, TemplateNode>`. -/
abbrev NodeMap : Type := List (Nat × TemplateNode)

namespace NodeMap

/-- `HashMap::get` — first binding of the key. -/
def get (m : NodeMap) (k : Nat) : Option TemplateNode :=
  match m with
  | [] => none
  | (k', v) :: rest => if k = k' then some v else get rest k

/-- `HashMap::contains_key`. -/
def containsKey (m : NodeMap) (k : Nat) : Bool :=
  (get m k).isSome

/-- `HashMap::insert` — replace an existing binding in place, else append. -/
def insert (m : NodeMap) (k : Nat) (v : TemplateNode) : NodeMap :=
  match m with
  | [] => [(k, v)]
  | (k', v') :: rest => if k = k' then (k, v) :: rest else (k', v') :: insert rest k v

/-- `HashMap::get_mut` followed by an update — modify the first binding of `k`. -/
def modify (m : NodeMap) (k : Nat) (f : TemplateNode → TemplateNode) : NodeMap :=
  match m with
  | [] => []
  | (k', v') :: rest => if k = k' then (k', f v') :: rest else (k', v') :: modify rest k f

/-- `HashMap::remove` — drop the first binding of `k`. -/
def erase (m : NodeMap) (k : Nat) : NodeMap :=
  match m with
  | [] => []
  | (k', v') :: rest => if k = k' then rest else (k', v') :: erase rest k

/-- Keys, in association-list order. -/
def keys (m : NodeMap) : List Nat := m.map Prod.fst

end NodeMap

/-- Domain errors (`domain/error.rs`). -/
inductive DomainError : Type where
  | NodeNotFound : Nat → DomainError
  | MaxDepthExceeded : Nat → Nat → DomainError  -- node_id, max
  | CyclicMove : Nat → DomainError
deriving DecidableEq, Repr

/-- `book.rs::AddNodeRequest`. -/
structure AddNodeRequest : Type where
  parent : Option Nat
  title : String
  node_type : NodeType
  body : Option String
  placeholder : Option String
  position : Nat
deriving Repr

/-- `book.rs::UpdateNodeRequest` — two-level optionality: `none` leaves the
field untouched, `some none` clears it. -/
structure UpdateNodeRequest : Type where
  title : Option String
  body : Option (Option String)
  node_type : Option NodeType
  placeholder : Option (Option String)
deriving Repr

/-- The aggregate root (`book.rs::TemplateBook`).  The `BookId` field is never
read by any modelled operation and is omitted. -/
structure TemplateBook : Type where
  title : String
  max_depth : Nat        -- u8 in the source; values 0..255
  nodes : NodeMap
  root_nodes : List Nat
deriving DecidableEq, Repr

/-- `usize::MAX`, the sentinel position used for "append at end". -/
def usizeMax : Nat := 2 ^ 64 - 1

namespace TemplateBook

/-- `TemplateBook::new`. -/
def new (title : String) (max_depth : Nat) : TemplateBook :=
  { title := title, max_depth := max_depth, nodes := [], root_nodes := [] }

def get_node (b : TemplateBook) (id : Nat) : Option TemplateNode :=
  NodeMap.get b.nodes id

def node_count (b : TemplateBook) : Nat := b.nodes.length

/-- The ancestor walk of `depth_of`.  The accumulator `depth` mirrors the
`u8` counter of the source: it is bumped with `saturating_add(1)` and the
walk breaks (returning 255) as soon as the counter reaches `u8::MAX` — the
source's own defence against corrupt (cyclic) data, which is also what
bounds the loop.  `gas` only makes that bound structural: `depth_of` starts
the walk with `gas = 254`, and since every iteration raises `depth` by one
and the walk stops at `depth = 255`, the `gas = 0` branch is unreachable
from that entry point — the model computes exactly what the source loop
does, on every input. -/
def depth_of_walk (nodes : NodeMap) : Nat → Nat → Nat → Nat
  | 0, _, depth => depth
  | gas + 1, current, depth =>
    match (NodeMap.get nodes current).bind TemplateNode.parent with
    | none => depth
    | some p =>
      let d := min (depth + 1) 255
      if d = 255 then d
      else depth_of_walk nodes gas p d

/-- `TemplateBook::depth_of` — depth of a node, root = 1, capped at 255. -/
def depth_of (b : TemplateBook) (id : Nat) : Nat :=
  depth_of_walk b.nodes 254 id 1

/-- The ancestor walk of `is_descendant_of`.  The source loop is unbounded;
the model adds fuel, and callers pass `nodes.length`, which is enough steps
to reach a root on every acyclic aggregate (the parent chain then visits
distinct keys), so the model agrees with the source there. -/
def is_descendant_walk (nodes : NodeMap) (ancestor : Nat) : Nat → Nat → Bool
  | _, 0 => false
  | current, fuel + 1 =>
    match (NodeMap.get nodes current).bind TemplateNode.parent with
    | none => false
    | some p => if p = ancestor then true else is_descendant_walk nodes ancestor p fuel

/-- `TemplateBook::is_descendant_of node ancestor` — walks `node`'s parent
chain looking for `ancestor`.  Note: when `node = ancestor` the walk starts
*above* `node`, so on acyclic data a node is never a descendant of itself. -/
def is_descendant_of (b : TemplateBook) (node ancestor : Nat) : Bool :=
  is_descendant_walk b.nodes ancestor node b.nodes.length

/-- Descendant-id collection (`collect_descendants`), fuelled.  The fuel is
spent one unit per recursion level; callers pass `nodes.length`, enough for
every acyclic aggregate. -/
def collect_descendants_walk (nodes : NodeMap) : Nat → Nat → List Nat
  | _, 0 => []
  | id, fuel + 1 =>
    match NodeMap.get nodes id with
    | none => []
    | some node =>
      node.children.flatMap (fun cid => cid :: collect_descendants_walk nodes cid fuel)

def collect_descendants (b : TemplateBook) (id : Nat) : List Nat :=
  collect_descendants_walk b.nodes id b.nodes.length

/-- `TemplateBook::subtree_max_depth`. -/
def subtree_max_depth (b : TemplateBook) (root : Nat) : Nat :=
  (collect_descendants b root).foldl (fun mx d => max mx (depth_of b d)) (depth_of b root)

/-- DFS subtree collection (`collect_subtree_dfs`), fuelled like
`collect_descendants_walk`. -/
def subtree_dfs_walk (nodes : NodeMap) : Nat → Nat → List TemplateNode
  | _, 0 => []
  | id, fuel + 1 =>
    match NodeMap.get nodes id with
    | none => []
    | some node => node :: node.children.flatMap (fun cid => subtree_dfs_walk nodes cid fuel)

/-- `TemplateBook::all_nodes_dfs` — all nodes, depth-first from the roots. -/
def all_nodes_dfs (b : TemplateBook) : List TemplateNode :=
  b.root_nodes.flatMap (fun rid => subtree_dfs_walk b.nodes rid b.nodes.length)

/-- `TemplateBook::all_node_ids` — iteration order of the map model. -/
def all_node_ids (b : TemplateBook) : List Nat := NodeMap.keys b.nodes

/-- The node record created by `add_node` before insertion: a fresh node
with the requested title/type, body and placeholder set afterwards. -/
def newNode (nid : Nat) (req : AddNodeRequest) : TemplateNode :=
  ((TemplateNode.new nid req.parent req.title req.node_type).set_body req.body).set_placeholder
    req.placeholder

/-- `TemplateBook::add_node`.  `nid` stands for the freshly generated random
`NodeId`.  The depth of the would-be node is computed in `u8` arithmetic:
`depth_of` is already capped at 255 and the source adds 1 without saturation,
so the sum is reduced modulo 256 (release overflow semantics). -/
def add_node (b : TemplateBook) (nid : Nat) (req : AddNodeRequest) :
    Except DomainError Nat × TemplateBook :=
  -- parent existence check, then depth check, then insertion and linking
  match req.parent with
  | some parent_id =>
    if NodeMap.containsKey b.nodes parent_id then
      add_node_at_depth b nid req ((depth_of b parent_id + 1) % 256)
    else
      (.error (.NodeNotFound parent_id), b)
  | none => add_node_at_depth b nid req 1
where
  /-- continuation of `add_node` after the parent check, given the computed
  depth of the would-be node -/
  add_node_at_depth (b : TemplateBook) (nid : Nat) (req : AddNodeRequest)
      (new_depth : Nat) : Except DomainError Nat × TemplateBook :=
    if new_depth > b.max_depth then
      (.error (.MaxDepthExceeded nid b.max_depth), b)
    else
      match req.parent with
      | some parent_id =>
        match NodeMap.get (NodeMap.insert b.nodes nid (newNode nid req)) parent_id with
        | none =>
          (.error (.NodeNotFound parent_id),
            { b with nodes := NodeMap.insert b.nodes nid (newNode nid req) })
        | some _ =>
          (.ok nid,
            { b with
              nodes := NodeMap.modify (NodeMap.insert b.nodes nid (newNode nid req)) parent_id (fun p => p.add_child nid req.position) })
      | none =>
        (.ok nid,
          { b with nodes := NodeMap.insert b.nodes nid (newNode nid req),
                   root_nodes :=
                     b.root_nodes.insertIdx (min req.position b.root_nodes.length) nid })

/-- The field updates of `update_node` applied to the fetched node: each
`some` request field is applied with the corresponding setter, in source
order. -/
def applyUpdate (req : UpdateNodeRequest) (n : TemplateNode) : TemplateNode :=
  let n := match req.title with | some t => n.set_title t | none => n
  let n := match req.body with | some v => n.set_body v | none => n
  let n := match req.node_type with | some t => n.set_node_type t | none => n
  match req.placeholder with | some v => n.set_placeholder v | none => n

/-- `TemplateBook::update_node` — fetch the node (NotFound if absent) and
apply the requested field changes to it. -/
def update_node (b : TemplateBook) (id : Nat) (req : UpdateNodeRequest) :
    Except DomainError Unit × TemplateBook :=
  match NodeMap.get b.nodes id with
  | none => (.error (.NodeNotFound id), b)
  | some _ =>
    (.ok (), { b with nodes := NodeMap.modify b.nodes id (applyUpdate req) })

/-- `TemplateBook::validate_move` (pure check, no mutation). -/
def validate_move (b : TemplateBook) (id : Nat) (new_parent : Option Nat) :
    Except DomainError Unit :=
  if ¬ NodeMap.containsKey b.nodes id then
    .error (.NodeNotFound id)
  else
    match new_parent with
    | some np_id =>
      if ¬ NodeMap.containsKey b.nodes np_id then
        .error (.NodeNotFound np_id)
      else if is_descendant_of b np_id id then
        .error (.CyclicMove id)
      else
        validate_move_depth b id new_parent
    | none => validate_move_depth b id new_parent
where
  /-- the depth-headroom part of `validate_move`, with the source's saturating
  `u8` arithmetic -/
  validate_move_depth (b : TemplateBook) (id : Nat) (new_parent : Option Nat) :
      Except DomainError Unit :=
    let subtree_max := subtree_max_depth b id
    let current_depth := depth_of b id
    let new_base_depth : Nat :=
      match new_parent with
      | some np_id => min (depth_of b np_id + 1) 255
      | none => 1
    let depth_delta := subtree_max - current_depth
    if min (new_base_depth + depth_delta) 255 > b.max_depth then
      .error (.MaxDepthExceeded id b.max_depth)
    else
      .ok ()

/-- `TemplateBook::detach_from_parent`. -/
def detach_from_parent (b : TemplateBook) (id : Nat) :
    Except DomainError Unit × TemplateBook :=
  match NodeMap.get b.nodes id with
  | none => (.error (.NodeNotFound id), b)
  | some node =>
    match node.parent with
    | some op_id =>
      match NodeMap.get b.nodes op_id with
      | none => (.error (.NodeNotFound op_id), b)
      | some _ =>
        (.ok (), { b with nodes := NodeMap.modify b.nodes op_id (fun n => n.remove_child id) })
    | none =>
      (.ok (), { b with root_nodes := b.root_nodes.filter (fun nid => nid ≠ id) })

/-- `TemplateBook::attach_to_parent` — set the node\'s parent, then link it
into the new parent\'s child list (or the root list) at the clamped
position. -/
def attach_to_parent (b : TemplateBook) (id : Nat) (new_parent : Option Nat)
    (position : Nat) : Except DomainError Unit × TemplateBook :=
  match NodeMap.get b.nodes id with
  | none => (.error (.NodeNotFound id), b)
  | some _ =>
    match new_parent with
    | some np_id =>
      match NodeMap.get (NodeMap.modify b.nodes id (fun n => n.set_parent new_parent)) np_id with
      | none =>
        (.error (.NodeNotFound np_id),
          { b with nodes := NodeMap.modify b.nodes id (fun n => n.set_parent new_parent) })
      | some _ =>
        (.ok (),
          { b with
            nodes := NodeMap.modify (NodeMap.modify b.nodes id (fun n => n.set_parent new_parent)) np_id (fun n => n.add_child id position) })
    | none =>
      (.ok (),
        { b with nodes := NodeMap.modify b.nodes id (fun n => n.set_parent new_parent),
                 root_nodes :=
                   b.root_nodes.insertIdx (min position b.root_nodes.length) id })

/-- `TemplateBook::move_node` — validate, then detach, then attach, each step
aborting on error with the aggregate as mutated so far. -/
def move_node (b : TemplateBook) (id : Nat) (new_parent : Option Nat)
    (position : Nat) : Except DomainError Unit × TemplateBook :=
  match validate_move b id new_parent with
  | .error e => (.error e, b)
  | .ok () =>
    match detach_from_parent b id with
    | (.error e, b') => (.error e, b')
    | (.ok (), b') => attach_to_parent b' id new_parent position

/-- Final step of `remove_node`: delete the node itself and every collected
descendant from the map. -/
def removeEntries (b : TemplateBook) (id : Nat) (descendants : List Nat) : TemplateBook :=
  { b with nodes := descendants.foldl NodeMap.erase (NodeMap.erase b.nodes id) }

/-- `TemplateBook::remove_node` — collect the descendant set first, detach
from the former parent (or the root list), then delete the whole subtree. -/
def remove_node (b : TemplateBook) (id : Nat) :
    Except DomainError Unit × TemplateBook :=
  if ¬ NodeMap.containsKey b.nodes id then
    (.error (.NodeNotFound id), b)
  else
    match NodeMap.get b.nodes id with
    | none => (.error (.NodeNotFound id), b)
    | some node =>
      match node.parent with
      | some p_id =>
        match NodeMap.get b.nodes p_id with
        | none => (.error (.NodeNotFound p_id), b)
        | some _ =>
          (.ok (),
            removeEntries
              { b with nodes := NodeMap.modify b.nodes p_id (fun n => n.remove_child id) }
              id (collect_descendants b id))
      | none =>
        (.ok (),
          removeEntries { b with root_nodes := b.root_nodes.filter (fun nid => nid ≠ id) }
            id (collect_descendants b id))

end TemplateBook

/-! ## Application-layer errors (`application/error.rs`)

`Storage` and `EjectIo` wrap opaque I/O failures and never arise in the
modelled (pure) code paths; they are omitted. -/

inductive AppError : Type where
  | Domain : DomainError → AppError
  | BookNotFound : AppError
  | ImportInvalidType : String → AppError
deriving DecidableEq, Repr

/-! ## Rendering of node ids as text

`NodeId::to_string` prints the canonical hyphenated UUID (36 characters,
32 lowercase hex digits with hyphens after positions 8, 12, 16 and 20).
The model renders its `Nat` ids in that same shape: the 32 hex digits of
the number modulo 2^128. -/

/-- `width` hex digits of `n`, most significant first, zero-padded. -/
def hexPad : Nat → Nat → List Char
  | 0, _ => []
  | w + 1, n => hexPad w (n / 16) ++ [Nat.digitChar (n % 16)]

/-- Hyphenated 36-character textual form of a node id. -/
def idText (n : Nat) : String :=
  let cs := hexPad 32 (n % 2 ^ 128)
  String.mk (cs.take 8) ++ "-" ++ String.mk ((cs.drop 8).take 4) ++ "-" ++
    String.mk ((cs.drop 12).take 4) ++ "-" ++ String.mk ((cs.drop 16).take 4) ++ "-" ++
    String.mk (cs.drop 20)

/-! ## Tree codec (`application/eject.rs`) -/

/-- `eject.rs::EjectTreeNode` — the recursive serializable tree DTO. -/
inductive EjectTreeNode : Type where
  | mk (id : String) (title : String) (node_type : String) (body : Option String)
      (placeholder : Option String) (children : List EjectTreeNode)

namespace EjectTreeNode

def title : EjectTreeNode → String
  | .mk _ t _ _ _ _ => t

def node_type : EjectTreeNode → String
  | .mk _ _ ty _ _ _ => ty

def body : EjectTreeNode → Option String
  | .mk _ _ _ b _ _ => b

def placeholder : EjectTreeNode → Option String
  | .mk _ _ _ _ p _ => p

def children : EjectTreeNode → List EjectTreeNode
  | .mk _ _ _ _ _ cs => cs

end EjectTreeNode

/-- `eject.rs::EjectTree`. -/
structure EjectTree : Type where
  title : String
  max_depth : Nat
  nodes : List EjectTreeNode

namespace EjectService

/-- Type tag rendered on export. -/
def typeTag : NodeType → String
  | .Section => "section"
  | .Content => "content"

/-- `EjectService::build_tree_node`, fuelled one unit per recursion level;
callers pass `nodes.length + 1`, which is enough on every acyclic aggregate
(nesting never exceeds the node count).  Like the source's `filter_map`,
a missing node yields `none` and is skipped by the caller. -/
def build_tree_node (nodes : NodeMap) : Nat → Nat → Option EjectTreeNode
  | 0, _ => none
  | fuel + 1, id =>
    match NodeMap.get nodes id with
    | none => none
    | some node =>
      some (.mk (idText id) node.title (typeTag node.node_type) node.body node.placeholder
        (node.children.filterMap (fun cid => build_tree_node nodes fuel cid)))

/-- `EjectService::build_tree`. -/
def build_tree (b : TemplateBook) (subtree_root : Option Nat) : EjectTree :=
  let root_ids : List Nat :=
    match subtree_root with
    | some root_id => ((NodeMap.get b.nodes root_id).map TemplateNode.children).getD []
    | none => b.root_nodes
  let title : String :=
    match subtree_root with
    | some root_id => ((NodeMap.get b.nodes root_id).map TemplateNode.title).getD b.title
    | none => b.title
  { title := title, max_depth := b.max_depth,
    nodes := root_ids.filterMap (fun id => build_tree_node b.nodes (b.nodes.length + 1) id) }

/-- `IMPORT_MAX_RECURSION` — the fixed nesting ceiling of the import codec. -/
def IMPORT_MAX_RECURSION : Nat := 32

/-- The type-tag match in `import_tree_node`: `section`/`content`, the three
legacy tags normalising to `Content`, anything else an invalid-type error. -/
def parse_import_type (s : String) : Except AppError NodeType :=
  if s = "section" then .ok .Section
  else if s = "content" then .ok .Content
  else if s = "checklist" ∨ s = "reference" ∨ s = "runnable" then .ok .Content
  else .error (.ImportInvalidType s)

mutual

/-- `EjectService::import_tree_node`.  `c` is the next fresh id (standing for
the random `NodeId` generator); ids are handed out in depth-first order. -/
def import_tree_node (b : TemplateBook) (c : Nat) (parent : Option Nat)
    (t : EjectTreeNode) (depth : Nat) : Except AppError (TemplateBook × Nat) :=
  match t with
  | .mk _ title node_type body placeholder children =>
    if depth ≥ IMPORT_MAX_RECURSION then
      .error (.ImportInvalidType "maximum import nesting depth exceeded")
    else
      match parse_import_type node_type with
      | .error e => .error e
      | .ok ty =>
        match TemplateBook.add_node b c
            { parent := parent, title := title, node_type := ty, body := body,
              placeholder := placeholder, position := usizeMax } with
        | (.error e, _) => .error (.Domain e)
        | (.ok nid, b') => import_children b' (c + 1) (some nid) children (depth + 1)

/-- The child loop of `import_tree_node` (also the root loop of
`import_tree`, at depth 0 with no parent). -/
def import_children (b : TemplateBook) (c : Nat) (parent : Option Nat)
    (ts : List EjectTreeNode) (depth : Nat) : Except AppError (TemplateBook × Nat) :=
  match ts with
  | [] => .ok (b, c)
  | t :: rest =>
    match import_tree_node b c parent t depth with
    | .error e => .error e
    | .ok (b', c') => import_children b' c' parent rest depth

end

/-- `EjectService::import_tree`. -/
def import_tree (t : EjectTree) : Except AppError TemplateBook :=
  (import_children (TemplateBook.new t.title t.max_depth) 0 none t.nodes 0).map Prod.fst

end EjectService

/-! ## MCP interface layer (`interface/mcp.rs`) -/

/-- `str::split('-')` on character lists, boundary-faithful: an empty
input gives one empty segment, and leading/trailing/adjacent separators
yield empty segments. -/
def splitDash : List Char → List (List Char)
  | [] => [[]]
  | c :: rest =>
    if c = '-' then [] :: splitDash rest
    else
      match splitDash rest with
      | seg :: segs => (c :: seg) :: segs
      | [] => [[c]]

/-- `mcp.rs::is_hierarchical_id` — non-empty, and every hyphen-separated
segment non-empty and all-ASCII-digit. -/
def is_hierarchical_id (s : String) : Bool :=
  !s.toList.isEmpty &&
    (splitDash s.toList).all (fun part => !part.isEmpty && part.all Char.isDigit)

/-- `mcp.rs::collect_children_ids`, fuelled one unit per recursion level
(callers pass the node count, enough on every acyclic aggregate). -/
def collect_children_ids (nodes : NodeMap) : Nat → Nat → String → List (String × Nat)
  | 0, _, _ => []
  | fuel + 1, parent_id, parent_num =>
    match NodeMap.get nodes parent_id with
    | none => []
    | some node =>
      node.children.enum.flatMap (fun ji =>
        let num := parent_num ++ "-" ++ toString (ji.1 + 1)
        (num, ji.2) :: collect_children_ids nodes fuel ji.2 num)

/-- `mcp.rs::build_hierarchical_ids` — the positional-numbering enumeration,
depth-first over the whole aggregate. -/
def build_hierarchical_ids (b : TemplateBook) : List (String × Nat) :=
  b.root_nodes.enum.flatMap (fun ir =>
    let num := toString (ir.1 + 1)
    (num, ir.2) :: collect_children_ids b.nodes b.nodes.length ir.2 num)

/-- `mcp.rs::find_hierarchical_id`. -/
def find_hierarchical_id (b : TemplateBook) (target : Nat) : Option String :=
  ((build_hierarchical_ids b).find? (fun p => p.2 = target)).map Prod.fst

/-- Does `q` occur at the head of `h`?  (`str::starts_with`.) -/
def matchesAt : List Char → List Char → Bool
  | [], _ => true
  | _ :: _, [] => false
  | q :: qs, c :: cs => q = c && matchesAt qs cs

/-- `str::contains` on character lists — `q` occurs somewhere in `hay`. -/
def containsChars (hay q : List Char) : Bool :=
  match hay with
  | [] => q.isEmpty
  | _ :: rest => matchesAt q hay || containsChars rest q

/-- ASCII lower-casing of one character (`str::to_lowercase`; the source
applies full Unicode lower-casing, which coincides with this on ASCII). -/
def lowerChar (c : Char) : Char :=
  if 'A' ≤ c ∧ c ≤ 'Z' then Char.ofNat (c.toNat + 32) else c

def lowerStr (l : List Char) : List Char := l.map lowerChar

/-- Is `c` an ASCII hex digit? -/
def isHexChar (c : Char) : Bool :=
  c.isDigit || ('a' ≤ c && c ≤ 'f') || ('A' ≤ c && c ≤ 'F')

/-- Models `uuid::Uuid` string parsing (`parse_node_id` in `mcp.rs`) for the
canonical hyphenated form — 36 characters with hyphens at indices 8, 13, 18
and 23 and hex digits elsewhere.  This is the form the program itself emits
for every id. -/
def is_uuid_text (s : String) : Bool :=
  s.toList.length = 36 &&
    s.toList.enum.all (fun ic =>
      if ic.1 = 8 ∨ ic.1 = 13 ∨ ic.1 = 18 ∨ ic.1 = 23 then ic.2 = '-'
      else isHexChar ic.2)

def hexCharVal (c : Char) : Nat :=
  if c.isDigit then c.toNat - 48
  else if 'a' ≤ c && c ≤ 'f' then c.toNat - 87
  else c.toNat - 55

/-- `mcp.rs::parse_node_id` — the numeric value of a well-formed uuid text,
`none` when the text is not well-formed. -/
def parse_node_id (s : String) : Option Nat :=
  if is_uuid_text s then
    some ((s.toList.filter (fun c => c ≠ '-')).foldl (fun a c => a * 16 + hexCharVal c) 0)
  else none

/-- Errors produced by `resolve_id` (in the source these are all
`invalid_params` protocol errors distinguished by message; the model keeps
the distinguishing data). -/
inductive ResolveError : Type where
  | NoSuchPosition : String → ResolveError
  | AmbiguousIdMatches : String → Nat → ResolveError
  | NoNodeMatching : String → ResolveError
  | AmbiguousTitleMatches : String → List Nat → ResolveError
deriving DecidableEq, Repr

/-- The `id_matches` vector of `resolve_id`: ids whose textual form starts
with the given string, in map iteration order. -/
def idCandidates (b : TemplateBook) (s : String) : List Nat :=
  (TemplateBook.all_node_ids b).filter (fun id => matchesAt s.toList (idText id).toList)

/-- The `title_matches` vector of `resolve_id`: ids of nodes (DFS order)
whose lower-cased title contains the lower-cased string. -/
def titleCandidates (b : TemplateBook) (s : String) : List Nat :=
  ((TemplateBook.all_nodes_dfs b).filter
    (fun n => containsChars (lowerStr n.title.toList) (lowerStr s.toList))).map
    TemplateNode.id

/-- `mcp.rs::resolve_id` — hierarchical number, then full uuid, then id-text
prefix scan (zero matches falling through), then case-insensitive title
substring scan. -/
def resolve_id (b : TemplateBook) (s : String) : Except ResolveError Nat :=
  if is_hierarchical_id s then
    match (build_hierarchical_ids b).find? (fun p => p.1 = s) with
    | some p => .ok p.2
    | none => .error (.NoSuchPosition s)
  else
    match parse_node_id s with
    | some id => .ok id
    | none =>
      match idCandidates b s with
      | [id] => .ok id
      | l@(_ :: _ :: _) => .error (.AmbiguousIdMatches s l.length)
      | [] =>
        match titleCandidates b s with
        | [] => .error (.NoNodeMatching s)
        | [id] => .ok id
        | l => .error (.AmbiguousTitleMatches s l)

/-! ## Specification-side definitions (for the refinement claims)

These follow the spec's words rather than the source and are compared with
the source-derived definitions in the theorems below. -/

/-- Spec §3: a positional number is the node's path of 1-based sibling
positions rendered with hyphens. -/
def pathString : List Nat → String
  | [] => ""
  | [i] => toString i
  | i :: rest => toString i ++ "-" ++ pathString rest

/-- Spec-side numbering of the descendants of the node at path `path`. -/
def hierSpecChildren (nodes : NodeMap) : Nat → Nat → List Nat → List (String × Nat)
  | 0, _, _ => []
  | fuel + 1, parent_id, path =>
    match NodeMap.get nodes parent_id with
    | none => []
    | some node =>
      node.children.enum.flatMap (fun ji =>
        (pathString (path ++ [ji.1 + 1]), ji.2) ::
          hierSpecChildren nodes fuel ji.2 (path ++ [ji.1 + 1]))

/-- Spec-side positional numbering of the whole aggregate: the i-th root
(1-based) is numbered `i`, and a node at sibling-position path `p₁…pₖ` is
numbered `p₁-…-pₖ`, enumerated depth-first. -/
def hierSpec (b : TemplateBook) : List (String × Nat) :=
  b.root_nodes.enum.flatMap (fun ir =>
    (pathString [ir.1 + 1], ir.2) ::
      hierSpecChildren b.nodes b.nodes.length ir.2 [ir.1 + 1])

/-- Amended spec step (1): positional syntax resolves by forward lookup;
`none` means "not this step". -/
def resolveStepPositional (b : TemplateBook) (s : String) :
    Option (Except ResolveError Nat) :=
  if is_hierarchical_id s then
    some (match (build_hierarchical_ids b).find? (fun p => p.1 = s) with
          | some p => .ok p.2
          | none => .error (.NoSuchPosition s))
  else none

/-- Amended spec step (2): a well-formed opaque identifier is used
directly. -/
def resolveStepUuid (s : String) : Option (Except ResolveError Nat) :=
  (parse_node_id s).map Except.ok

/-- Amended spec step (3): identifier-prefix scan — one match resolves,
several are Ambiguous, zero matches fall through (`none`). -/
def resolveStepIdScan (b : TemplateBook) (s : String) :
    Option (Except ResolveError Nat) :=
  match idCandidates b s with
  | [] => none
  | [id] => some (.ok id)
  | l => some (.error (.AmbiguousIdMatches s l.length))

/-- Amended spec step (4): case-insensitive title-substring scan with
zero/one/many resolution — zero is NotFound here. -/
def resolveStepTitle (b : TemplateBook) (s : String) : Except ResolveError Nat :=
  match titleCandidates b s with
  | [] => .error (.NoNodeMatching s)
  | [id] => .ok id
  | l => .error (.AmbiguousTitleMatches s l)

/-- The amended four-step precedence: first applicable step wins. -/
def resolveSpec (b : TemplateBook) (s : String) : Except ResolveError Nat :=
  (resolveStepPositional b s <|> resolveStepUuid s <|> resolveStepIdScan b s).getD
    (resolveStepTitle b s)

/-- A two-Sections-with-two-Content-children aggregate (spec's concrete
numbering scenario). -/
def numberingDemoBook : TemplateBook :=
  { title := "N", max_depth := 2,
    nodes := [(1, { id := 1, parent := none, children := [2, 3], title := "S1",
                    body := none, node_type := .Section, placeholder := none }),
              (2, { id := 2, parent := some 1, children := [], title := "C11",
                    body := none, node_type := .Content, placeholder := none }),
              (3, { id := 3, parent := some 1, children := [], title := "C12",
                    body := none, node_type := .Content, placeholder := none }),
              (4, { id := 4, parent := none, children := [5, 6], title := "S2",
                    body := none, node_type := .Section, placeholder := none }),
              (5, { id := 5, parent := some 4, children := [], title := "C21",
                    body := none, node_type := .Content, placeholder := none }),
              (6, { id := 6, parent := some 4, children := [], title := "C22",
                    body := none, node_type := .Content, placeholder := none })],
    root_nodes := [1, 4] }

/-- A one-node aggregate whose node is titled "Alpha". -/
def titleDemoBook : TemplateBook :=
  { title := "B", max_depth := 2,
    nodes := [(1, { id := 1, parent := none, children := [], title := "Alpha",
                    body := none, node_type := .Content, placeholder := none })],
    root_nodes := [1] }

/-! ## Reachable aggregate states

The aggregate states obtainable from a fresh aggregate by successful
operations (`add`, `update`, `move`, `remove`).  The freshness side
condition on `add` models the uniqueness of freshly generated UUIDs. -/

inductive Reachable : TemplateBook → Prop where
  | new (title : String) (max_depth : Nat) : Reachable (TemplateBook.new title max_depth)
  | add {b : TemplateBook} {nid : Nat} {req : AddNodeRequest} {b' : TemplateBook}
      (hb : Reachable b) (hfresh : nid ∉ NodeMap.keys b.nodes)
      (h : TemplateBook.add_node b nid req = (.ok nid, b')) : Reachable b'
  | update {b : TemplateBook} {id : Nat} {req : UpdateNodeRequest} {b' : TemplateBook}
      (hb : Reachable b) (h : TemplateBook.update_node b id req = (.ok (), b')) : Reachable b'
  | move {b : TemplateBook} {id : Nat} {np : Option Nat} {pos : Nat} {b' : TemplateBook}
      (hb : Reachable b) (h : TemplateBook.move_node b id np pos = (.ok (), b')) : Reachable b'
  | remove {b : TemplateBook} {id : Nat} {b' : TemplateBook}
      (hb : Reachable b) (h : TemplateBook.remove_node b id = (.ok (), b')) : Reachable b'

/-! ## Concrete aggregates used as failing inputs and witnesses -/

/-- A fresh aggregate titled "T" with maximum depth 4. -/
def selfMoveBase : TemplateBook := TemplateBook.new "T" 4

/-- Request adding a root node titled "A" of type Section at the end. -/
def selfMoveAddReq : AddNodeRequest :=
  { parent := none, title := "A", node_type := .Section, body := none,
    placeholder := none, position := usizeMax }

/-- Add one root node (fresh id 0, title "A", Section). -/
def selfMoveAdded : TemplateBook :=
  (TemplateBook.add_node selfMoveBase 0 selfMoveAddReq).2

/-- Move node 0 under node 0 itself — the move the spec says must be
rejected with CyclicMove. -/
def selfMoveFinal : TemplateBook := (TemplateBook.move_node selfMoveAdded 0 (some 0) 0).2

/-- A request whose parent id (99) exists in no aggregate used below. -/
def badParentReq : AddNodeRequest :=
  { parent := some 99, title := "x", node_type := .Content, body := none,
    placeholder := none, position := 0 }

/-- A corrupt node map whose parent chain is a 2-cycle (0 ↔ 1). -/
def cyclicPairBook : TemplateBook :=
  { title := "corrupt", max_depth := 3,
    nodes := [(0, { id := 0, parent := some 1, children := [1], title := "a",
                    body := none, node_type := .Section, placeholder := none }),
              (1, { id := 1, parent := some 0, children := [0], title := "b",
                    body := none, node_type := .Section, placeholder := none })],
    root_nodes := [] }

/-- A one-node aggregate used to witness the update-frame property. -/
def updateDemoBook : TemplateBook :=
  { title := "U", max_depth := 3,
    nodes := [(4, { id := 4, parent := none, children := [], title := "Old",
                    body := some "b", node_type := .Section, placeholder := some "p" }),
              (9, { id := 9, parent := none, children := [], title := "Other",
                    body := none, node_type := .Content, placeholder := none })],
    root_nodes := [4, 9] }

/-- An update request touching title and clearing the body, leaving the
type untouched and clearing the placeholder. -/
def updateDemoReq : UpdateNodeRequest :=
  { title := some "New", body := some none, node_type := none,
    placeholder := some none }

instance {ε α : Type} [DecidableEq ε] [DecidableEq α] : DecidableEq (Except ε α) :=
  fun a b =>
    match a, b with
    | .ok x, .ok y => if h : x = y then .isTrue (by rw [h]) else .isFalse (by simp [h])
    | .ok _, .error _ => .isFalse (by simp)
    | .error _, .ok _ => .isFalse (by simp)
    | .error e, .error f => if h : e = f then .isTrue (by rw [h]) else .isFalse (by simp [h])

/-! ## Abstract forests

A well-formed aggregate is, abstractly, a forest of id-labelled trees.
`Represents` below ties a `TemplateBook` to such a forest; the round-trip
claims are settled through it. -/

/-- The attribute data of one node (identity-free). -/
structure NodeData : Type where
  title : String
  body : Option String
  node_type : NodeType
  placeholder : Option String
deriving DecidableEq, Repr

/-- Id-labelled rose tree. -/
inductive NTree : Type where
  | node (id : Nat) (data : NodeData) (children : List NTree)

/-- Identity-free rose tree: the "shape with fields" of an aggregate. -/
inductive Shape : Type where
  | node (data : NodeData) (children : List Shape)

def NTree.rootId : NTree → Nat
  | .node i _ _ => i

/-- Root ids of a forest, in order. -/
def topIds (ts : List NTree) : List Nat := ts.map NTree.rootId

mutual

/-- Number of nodes of a tree. -/
def sizeT : NTree → Nat
  | .node _ _ cs => 1 + sizeF cs

/-- Number of nodes of a forest. -/
def sizeF : List NTree → Nat
  | [] => 0
  | t :: ts => sizeT t + sizeF ts

end

mutual

/-- Nesting depth of a tree (a leaf has nesting 1). -/
def nestT : NTree → Nat
  | .node _ _ cs => 1 + nestF cs

/-- Nesting depth of a forest (empty forest: 0). -/
def nestF : List NTree → Nat
  | [] => 0
  | t :: ts => max (nestT t) (nestF ts)

end

mutual

/-- All ids of a tree, depth-first. -/
def idsT : NTree → List Nat
  | .node i _ cs => i :: idsF cs

/-- All ids of a forest, depth-first. -/
def idsF : List NTree → List Nat
  | [] => []
  | t :: ts => idsT t ++ idsF ts

end

mutual

/-- The node-map entries induced by a tree whose parent is `parent`:
depth-first, each entry carrying its parent back-reference and the ordered
ids of its children. -/
def entriesT (parent : Option Nat) : NTree → List (Nat × TemplateNode)
  | .node i d cs =>
    (i, { id := i, parent := parent, children := topIds cs, title := d.title,
          body := d.body, node_type := d.node_type, placeholder := d.placeholder }) ::
      entriesF (some i) cs

/-- The node-map entries induced by a forest. -/
def entriesF (parent : Option Nat) : List NTree → List (Nat × TemplateNode)
  | [] => []
  | t :: ts => entriesT parent t ++ entriesF parent ts

end

mutual

/-- Erase ids. -/
def shapeT : NTree → Shape
  | .node _ d cs => .node d (shapeF cs)

def shapeF : List NTree → List Shape
  | [] => []
  | t :: ts => shapeT t :: shapeF ts

end

mutual

/-- The export image of a tree (`build_tree_node`'s output on it). -/
def ejectT : NTree → EjectTreeNode
  | .node i d cs =>
    .mk (idText i) d.title (EjectService.typeTag d.node_type) d.body d.placeholder (ejectF cs)

def ejectF : List NTree → List EjectTreeNode
  | [] => []
  | t :: ts => ejectT t :: ejectF ts

end

mutual

/-- Relabel a tree with fresh ids handed out depth-first from `c`;
returns the relabelled tree and the next unused id. -/
def relabelT (c : Nat) : NTree → NTree × Nat
  | .node _ d cs =>
    let r := relabelF (c + 1) cs
    (.node c d r.1, r.2)

def relabelF (c : Nat) : List NTree → List NTree × Nat
  | [] => ([], c)
  | t :: ts =>
    let r₁ := relabelT c t
    let r₂ := relabelF r₁.2 ts
    (r₁.1 :: r₂.1, r₂.2)

end

/-- `b` is the aggregate described by forest `F`: same root list, node map
agreeing pointwise with the entries induced by `F`, and duplicate-free keys
on both sides. -/
def Represents (F : List NTree) (b : TemplateBook) : Prop :=
  b.root_nodes = topIds F ∧
  (∀ k, NodeMap.get b.nodes k = NodeMap.get (entriesF none F) k) ∧
  (NodeMap.keys b.nodes).Nodup ∧
  (idsF F).Nodup

/-- Node `i` is present in `m` with a parent chain of length `d - 1`
ending at a present parentless node (so `i` sits at depth `d ≥ 1`). -/
inductive HasDepth (m : NodeMap) : Nat → Nat → Prop where
  | root (i : Nat) (n : TemplateNode) (hget : NodeMap.get m i = some n)
      (hp : n.parent = none) : HasDepth m i 1
  | step (i p : Nat) (n : TemplateNode) (d : Nat)
      (hget : NodeMap.get m i = some n) (hp : n.parent = some p)
      (hd : HasDepth m p d) : HasDepth m i (d + 1)

mutual

/-- Nesting depth of a serialized tree. -/
def nestET : EjectTreeNode → Nat
  | .mk _ _ _ _ _ cs => 1 + nestEF cs

/-- Nesting depth of a serialized forest. -/
def nestEF : List EjectTreeNode → Nat
  | [] => 0
  | t :: ts => max (nestET t) (nestEF ts)

end

mutual

/-- Number of nodes of a serialized tree. -/
def sizeET : EjectTreeNode → Nat
  | .mk _ _ _ _ _ cs => 1 + sizeEF cs

def sizeEF : List EjectTreeNode → Nat
  | [] => 0
  | t :: ts => sizeET t + sizeEF ts

end

/-- Is a type tag recognised by the import codec? -/
def tagOk (s : String) : Bool :=
  match EjectService.parse_import_type s with
  | .ok _ => true
  | .error _ => false

mutual

/-- All type tags of a serialized tree are recognised by the import codec. -/
def tagsOkT : EjectTreeNode → Bool
  | .mk _ _ ty _ _ cs => tagOk ty && tagsOkF cs

def tagsOkF : List EjectTreeNode → Bool
  | [] => true
  | t :: ts => tagsOkT t && tagsOkF ts

end

/-- The book obtained by importing forest `F` (relabelled from `c`) under
`parent` into `b`: the relabelled entries are appended to the node map,
the relabelled root ids are appended to the parent\'s child list (or to the
root list).  The import theorems show `import_children` computes this. -/
def importedBook (b : TemplateBook) (c : Nat) (parent : Option Nat) (F : List NTree) :
    TemplateBook :=
  { title := b.title, max_depth := b.max_depth,
    nodes := (match parent with
      | some pid => NodeMap.modify b.nodes pid
          (fun n => { n with children := n.children ++ topIds (relabelF c F).1 })
      | none => b.nodes) ++ entriesF parent (relabelF c F).1,
    root_nodes := (match parent with
      | some _ => b.root_nodes
      | none => b.root_nodes ++ topIds (relabelF c F).1) }

/-- A serialized chain: `chainTree n` is nested `n + 1` levels deep. -/
def chainTree : Nat → EjectTreeNode
  | 0 => .mk "x" "t" "content" none none []
  | n + 1 => .mk "x" "t" "section" none none [chainTree n]

/-- The node type a recognised tag decodes to (total companion of
`parse_import_type`, defaulting to `Content` on unrecognised tags). -/
def parseTag (s : String) : NodeType :=
  match EjectService.parse_import_type s with
  | .ok t => t
  | .error _ => .Content

mutual

/-- Normalise a serialized node to an abstract tree: drop the (ignored)
id string, decode the type tag.  Import treats a valid-tag serialized
tree and the export image of its normalisation identically. -/
def normT : EjectTreeNode → NTree
  | .mk _ title ty body ph cs =>
    .node 0 { title := title, body := body, node_type := parseTag ty, placeholder := ph }
      (normF cs)

def normF : List EjectTreeNode → List NTree
  | [] => []
  | t :: ts => normT t :: normF ts

end

/-- A small represented forest: one root section. -/
def rtDemoF : List NTree :=
  [NTree.node 5 { title := "A", body := none, node_type := .Section, placeholder := none } []]

/-- The canonical aggregate of `rtDemoF`. -/
def rtDemoBook : TemplateBook :=
  { title := "T", max_depth := 4, nodes := entriesF none rtDemoF, root_nodes := topIds rtDemoF }

/-- An abstract chain: `chainN n` is a path of `n + 1` nodes with ids
`n, n-1, …, 0` from the root down. -/
def chainN : Nat → NTree
  | 0 => .node 0 { title := "t", body := none, node_type := .Content, placeholder := none } []
  | n + 1 =>
    .node (n + 1) { title := "t", body := none, node_type := .Section, placeholder := none }
      [chainN n]

/-- An aggregate holding a 40-deep chain, within its own `max_depth` of 40
(constructible through `add_node` alone) — deeper than the import codec's
fixed recursion ceiling of 32. -/
def deepBook : TemplateBook :=
  { title := "D", max_depth := 40, nodes := entriesF none [chainN 39],
    root_nodes := topIds [chainN 39] }

/-- `Covers m parent t`: every node of `t` is present in `m` with exactly
the record the tree induces — parent back-reference and the ordered ids of
its children included.  This is what `build_tree_node` needs to export `t`
faithfully. -/
inductive Covers (m : NodeMap) : Option Nat → NTree → Prop where
  | node (parent : Option Nat) (i : Nat) (d : NodeData) (cs : List NTree)
      (hget : NodeMap.get m i = some { id := i, parent := parent, children := topIds cs, title := d.title, body := d.body, node_type := d.node_type, placeholder := d.placeholder })
      (hcs : ∀ t ∈ cs, Covers m (some i) t) :
      Covers m parent (.node i d cs)

/-! # Theorems -/

namespace NodeMap

theorem get_insert (m : NodeMap) (k : Nat) (v : TemplateNode) (k' : Nat) :
    get (insert m k v) k' = if k' = k then some v else get m k' := by
  induction m with
  | nil => simp [insert, get]
  | cons hd tl ih =>
    obtain ⟨k₀, v₀⟩ := hd
    by_cases h : k = k₀
    · subst h
      by_cases h' : k' = k <;> simp [insert, get, h']
    · by_cases h' : k' = k₀
      · subst h'
        have hne : k' ≠ k := fun hh => h hh.symm
        simp [insert, get, h, hne]
      · simp [insert, get, h, h', ih]

theorem get_modify (m : NodeMap) (k : Nat) (f : TemplateNode → TemplateNode) (k' : Nat) :
    get (modify m k f) k' = if k' = k then (get m k').map f else get m k' := by
  induction m with
  | nil => simp [modify, get]
  | cons hd tl ih =>
    obtain ⟨k₀, v₀⟩ := hd
    by_cases h : k = k₀
    · subst h
      by_cases h' : k' = k <;> simp [modify, get, h']
    · by_cases h' : k' = k₀
      · subst h'
        have hne : k' ≠ k := fun hh => h hh.symm
        simp [modify, get, h, hne]
      · simp [modify, get, h, h', ih]

theorem keys_modify (m : NodeMap) (k : Nat) (f : TemplateNode → TemplateNode) :
    keys (modify m k f) = keys m := by
  induction m with
  | nil => rfl
  | cons hd tl ih =>
    obtain ⟨k₀, v₀⟩ := hd
    by_cases h : k = k₀
    · simp [modify, keys, h]
    · simp [modify, keys, h]
      simpa [keys] using ih

theorem length_modify (m : NodeMap) (k : Nat) (f : TemplateNode → TemplateNode) :
    (modify m k f).length = m.length := by
  induction m with
  | nil => rfl
  | cons hd tl ih =>
    obtain ⟨k₀, v₀⟩ := hd
    by_cases h : k = k₀ <;> simp [modify, h, ih]

theorem get_eq_none_iff (m : NodeMap) (k : Nat) :
    get m k = none ↔ k ∉ keys m := by
  induction m with
  | nil => simp [get, keys]
  | cons hd tl ih =>
    obtain ⟨k₀, v₀⟩ := hd
    by_cases h : k = k₀ <;> simp [get, keys, h, ih]

theorem keys_insert_of_not_mem (m : NodeMap) (k : Nat) (v : TemplateNode)
    (h : k ∉ keys m) : keys (insert m k v) = keys m ++ [k] := by
  induction m with
  | nil => simp [insert, keys]
  | cons hd tl ih =>
    obtain ⟨k₀, v₀⟩ := hd
    simp only [keys, List.map_cons, List.mem_cons] at h
    push_neg at h
    have := ih (by simpa [keys] using h.2)
    simp only [keys] at this
    simp [insert, h.1, keys, this]

theorem length_insert_of_not_mem (m : NodeMap) (k : Nat) (v : TemplateNode)
    (h : k ∉ keys m) : (insert m k v).length = m.length + 1 := by
  have := keys_insert_of_not_mem m k v h
  have hlen : (keys (insert m k v)).length = (keys m ++ [k]).length := by rw [this]
  simpa [keys] using hlen

end NodeMap


namespace TemplateBook

/-- The ancestor walk never returns below its starting counter and never
above 255, provided the counter starts within the `u8` range. -/
theorem depth_of_walk_bounds (nodes : NodeMap) :
    ∀ (gas current depth : Nat), depth ≤ 255 →
      depth ≤ depth_of_walk nodes gas current depth ∧
        depth_of_walk nodes gas current depth ≤ 255 := by
  intro gas
  induction gas with
  | zero =>
    intro c d hd
    simp only [depth_of_walk]
    exact ⟨le_refl _, hd⟩
  | succ g ih =>
    intro c d hd
    simp only [depth_of_walk]
    split
    · exact ⟨le_refl _, hd⟩
    · rename_i p hp
      split
      · omega
      · have := ih p (min (d + 1) 255) (by omega)
        exact ⟨le_trans (by omega) this.1, this.2⟩

end TemplateBook

/-- C9: depth computation is total on every aggregate state — corrupt ones
included — always returns at least 1 and never more than the 255 ceiling;
on a concrete aggregate whose parent data is a 2-cycle it returns the
ceiling 255 instead of looping forever. -/
theorem depth_of_terminates_bounded :
    (∀ (b : TemplateBook) (id : Nat),
      1 ≤ TemplateBook.depth_of b id ∧ TemplateBook.depth_of b id ≤ 255) ∧
      TemplateBook.depth_of cyclicPairBook 0 = 255 := by
  refine ⟨fun b id => ?_, rfl⟩
  exact TemplateBook.depth_of_walk_bounds b.nodes 254 id 1 (by omega)

/-- C1 (against the claim as stated): on a well-formed one-node aggregate,
moving node 0 under `new_parent = 0` (the node itself) is *accepted* —
`move_node` returns Ok rather than failing with CyclicMove, and afterwards
node 0 is its own parent and child and the root list is empty. -/
theorem move_node_accepts_self_parent :
    (TemplateBook.move_node selfMoveAdded 0 (some 0) 0).1 = .ok () ∧
    NodeMap.get selfMoveFinal.nodes 0 =
      some { id := 0, parent := some 0, children := [0], title := "A",
             body := none, node_type := .Section, placeholder := none } ∧
    selfMoveFinal.root_nodes = [] :=
  ⟨rfl, rfl, rfl⟩

/-- C2 (against the claim as stated): a state reachable from a fresh
aggregate by two successful operations (add a root node, then move it under
itself) contains a node whose depth, 255, exceeds the configured maximum
depth 4. -/
theorem reachable_state_depth_exceeds_max :
    Reachable selfMoveFinal ∧ 0 ∈ NodeMap.keys selfMoveFinal.nodes ∧
      selfMoveFinal.max_depth = 4 ∧ TemplateBook.depth_of selfMoveFinal 0 = 255 := by
  refine ⟨?_, by decide, rfl, rfl⟩
  exact @Reachable.move selfMoveAdded 0 (some 0) 0 selfMoveFinal
    (@Reachable.add selfMoveBase 0 selfMoveAddReq selfMoveAdded
      (Reachable.new "T" 4) (by decide) rfl) rfl

/-- C10: building the export tree with a subtree root absent from the
aggregate succeeds and yields the whole aggregate's title with an empty
node list — exactly the output of exporting a fresh empty aggregate with
that title and maximum depth. -/
theorem build_tree_missing_subtree_root (b : TemplateBook) (id : Nat)
    (h : NodeMap.get b.nodes id = none) :
    EjectService.build_tree b (some id) =
      { title := b.title, max_depth := b.max_depth, nodes := [] } ∧
    EjectService.build_tree b (some id) =
      EjectService.build_tree (TemplateBook.new b.title b.max_depth) none := by
  unfold EjectService.build_tree
  simp [h, TemplateBook.new]

/-- Witness for C10 at a concrete aggregate and a concrete absent id. -/
theorem build_tree_missing_subtree_root_witness :
    NodeMap.get cyclicPairBook.nodes 5 = none ∧
      EjectService.build_tree cyclicPairBook (some 5) =
        { title := "corrupt", max_depth := 3, nodes := [] } := by
  refine ⟨rfl, ?_⟩
  have h := build_tree_missing_subtree_root cyclicPairBook 5 rfl
  exact h.1



namespace TemplateBook

/-- `add_node_at_depth` leaves the aggregate untouched on error, provided
the requested parent exists (which `add_node` has checked before calling
it). -/
theorem add_node_at_depth_error_unchanged (b : TemplateBook) (nid : Nat)
    (req : AddNodeRequest) (nd : Nat)
    (hpar : ∀ pid, req.parent = some pid → NodeMap.containsKey b.nodes pid = true)
    (e : DomainError) (h : (add_node.add_node_at_depth b nid req nd).1 = .error e) :
    (add_node.add_node_at_depth b nid req nd).2 = b := by
  unfold add_node.add_node_at_depth at h ⊢
  by_cases hgt : nd > b.max_depth
  · rw [if_pos hgt]
  · rw [if_neg hgt] at h ⊢
    rcases hreq : req.parent with _ | pid
    · simp only [hreq] at h
      exact absurd h (by simp)
    · have hck := hpar pid hreq
      simp only [hreq] at h
      rcases hg : NodeMap.get (NodeMap.insert b.nodes nid (newNode nid req)) pid with _ | v
      · exfalso
        rw [NodeMap.get_insert] at hg
        split at hg
        · exact Option.noConfusion hg
        · rw [NodeMap.containsKey, hg] at hck
          exact Bool.noConfusion hck
      · simp only [hg] at h
        exact absurd h (by simp)

/-- C3 for `add_node`: any error leaves the aggregate exactly as it was. -/
theorem add_node_error_unchanged (b : TemplateBook) (nid : Nat) (req : AddNodeRequest)
    (e : DomainError) (h : (add_node b nid req).1 = .error e) :
    (add_node b nid req).2 = b := by
  unfold add_node at *
  rcases hreq : req.parent with _ | pid
  · simp only [hreq] at h
    exact add_node_at_depth_error_unchanged b nid req 1
      (fun p hp => absurd (hreq ▸ hp) (by simp)) e h
  · simp only [hreq] at h
    simp only []
    by_cases hck : NodeMap.containsKey b.nodes pid = true
    · rw [if_pos hck] at h ⊢
      exact add_node_at_depth_error_unchanged b nid req _
        (fun p hp => by rw [hreq] at hp; cases hp; exact hck) e h
    · rw [if_neg hck] at h ⊢

/-- `detach_from_parent` leaves the aggregate untouched on error. -/
theorem detach_error_unchanged (b : TemplateBook) (id : Nat) (e : DomainError)
    (h : (detach_from_parent b id).1 = .error e) :
    (detach_from_parent b id).2 = b := by
  unfold detach_from_parent at *
  split at h
  · rfl
  · split at h
    · split at h
      · rfl
      · simp at h
    · simp at h

/-- `detach_from_parent` never changes which keys the node map contains. -/
theorem detach_containsKey (b : TemplateBook) (id k : Nat) :
    NodeMap.containsKey (detach_from_parent b id).2.nodes k =
      NodeMap.containsKey b.nodes k := by
  unfold detach_from_parent
  split
  · rfl
  · split
    · split
      · rfl
      · simp [NodeMap.containsKey, NodeMap.get_modify]
        split <;> simp [*]
    · rfl

/-- `attach_to_parent` succeeds whenever the node and the (optional) new
parent are present. -/
theorem attach_ok (b : TemplateBook) (id : Nat) (np : Option Nat) (pos : Nat)
    (hid : NodeMap.containsKey b.nodes id = true)
    (hnp : ∀ n, np = some n → NodeMap.containsKey b.nodes n = true) :
    (attach_to_parent b id np pos).1 = .ok () := by
  unfold attach_to_parent
  split
  · rename_i heq
    rw [NodeMap.containsKey, heq] at hid
    exact Bool.noConfusion hid
  · rcases hnp' : np with _ | n
    · simp only [hnp']
    · simp only [hnp']
      split
      · rename_i heq
        exfalso
        rw [NodeMap.get_modify] at heq
        have hn := hnp n hnp'
        split at heq
        · rename_i hn_eq
          subst hn_eq
          rw [NodeMap.containsKey] at hid
          rcases hg : NodeMap.get b.nodes n with _ | v
          · rw [hg] at hid; exact Bool.noConfusion hid
          · rw [hg] at heq; exact Option.noConfusion heq
        · rw [NodeMap.containsKey, heq] at hn
          exact Bool.noConfusion hn
      · rfl

/-- `validate_move` succeeding means the moved node and the new parent both
exist in the aggregate. -/
theorem validate_move_ok_contains (b : TemplateBook) (id : Nat) (np : Option Nat)
    (h : validate_move b id np = .ok ()) :
    NodeMap.containsKey b.nodes id = true ∧
      ∀ n, np = some n → NodeMap.containsKey b.nodes n = true := by
  unfold validate_move at h
  by_cases hid : NodeMap.containsKey b.nodes id = true
  · rw [if_neg (by simp [hid])] at h
    refine ⟨hid, fun n hn => ?_⟩
    subst hn
    simp only at h
    by_cases hn' : NodeMap.containsKey b.nodes n = true
    · exact hn'
    · rw [if_pos (by simp [hn'])] at h
      exact Except.noConfusion h
  · rw [if_pos (by simp [hid])] at h
    exact Except.noConfusion h

/-- C3 for `move_node`: any error leaves the aggregate exactly as it was. -/
theorem move_node_error_unchanged (b : TemplateBook) (id : Nat) (np : Option Nat)
    (pos : Nat) (e : DomainError) (h : (move_node b id np pos).1 = .error e) :
    (move_node b id np pos).2 = b := by
  unfold move_node at *
  rcases hv : validate_move b id np with e' | u
  · simp only [hv] at h ⊢
  · cases u
    simp only [hv] at h ⊢
    rcases hd : detach_from_parent b id with ⟨r, b'⟩
    rcases r with e' | u'
    · simp only [hd] at h ⊢
      have := detach_error_unchanged b id e' (by rw [hd])
      rw [hd] at this
      exact this
    · cases u'
      simp only [hd] at h ⊢
      exfalso
      obtain ⟨hid, hnp⟩ := validate_move_ok_contains b id np hv
      have hb' : b' = (detach_from_parent b id).2 := by rw [hd]
      have hok := attach_ok b' id np pos
        (by rw [hb', detach_containsKey]; exact hid)
        (fun n hn => by rw [hb', detach_containsKey]; exact hnp n hn)
      rw [h] at hok
      exact Except.noConfusion hok

end TemplateBook

/-- C3: whenever `add_node` or `move_node` returns an error — NotFound,
DepthExceeded or CyclicMove — the aggregate is exactly as it was before the
call: same node mapping, same root list, every node's parent and child
list intact. -/
theorem structural_errors_leave_aggregate_unchanged :
    (∀ (b : TemplateBook) (nid : Nat) (req : AddNodeRequest) (e : DomainError),
        (TemplateBook.add_node b nid req).1 = .error e →
        (TemplateBook.add_node b nid req).2 = b) ∧
    (∀ (b : TemplateBook) (id : Nat) (np : Option Nat) (pos : Nat) (e : DomainError),
        (TemplateBook.move_node b id np pos).1 = .error e →
        (TemplateBook.move_node b id np pos).2 = b) :=
  ⟨TemplateBook.add_node_error_unchanged, TemplateBook.move_node_error_unchanged⟩

/-- Witness for C3: a failing add (absent parent) and a failing move
(absent node) on a concrete aggregate, both leaving it unchanged. -/
theorem structural_errors_unchanged_witness :
    ((TemplateBook.add_node selfMoveBase 7 badParentReq).1 =
        .error (.NodeNotFound 99) ∧
      (TemplateBook.add_node selfMoveBase 7 badParentReq).2 = selfMoveBase) ∧
    ((TemplateBook.move_node selfMoveBase 3 none 0).1 = .error (.NodeNotFound 3) ∧
      (TemplateBook.move_node selfMoveBase 3 none 0).2 = selfMoveBase) :=
  ⟨⟨rfl, structural_errors_leave_aggregate_unchanged.1 _ _ _ _ rfl⟩,
    ⟨rfl, structural_errors_leave_aggregate_unchanged.2 _ _ _ _ _ rfl⟩⟩



/-- C8: `update_node` on an existing node changes exactly the requested
fields: an omitted (`none`) field keeps its value, a present field is
applied, with `some none` clearing body or placeholder; the node\'s id,
parent and children, every other node, and the aggregate\'s root list,
title and maximum depth are untouched. -/
theorem update_node_changes_exactly_requested_fields (b : TemplateBook) (id : Nat)
    (req : UpdateNodeRequest) (n : TemplateNode)
    (h : NodeMap.get b.nodes id = some n) :
    (TemplateBook.update_node b id req).1 = .ok () ∧
    NodeMap.get (TemplateBook.update_node b id req).2.nodes id = some
      { id := n.id, parent := n.parent, children := n.children,
        title := req.title.getD n.title,
        body := req.body.getD n.body,
        node_type := req.node_type.getD n.node_type,
        placeholder := req.placeholder.getD n.placeholder } ∧
    (∀ k, k ≠ id → NodeMap.get (TemplateBook.update_node b id req).2.nodes k =
      NodeMap.get b.nodes k) ∧
    (TemplateBook.update_node b id req).2.root_nodes = b.root_nodes ∧
    (TemplateBook.update_node b id req).2.title = b.title ∧
    (TemplateBook.update_node b id req).2.max_depth = b.max_depth := by
  unfold TemplateBook.update_node
  simp only [h]
  refine ⟨by trivial, ?_, ?_, by trivial, by trivial, by trivial⟩
  · rw [NodeMap.get_modify, if_pos rfl, h]
    obtain ⟨t, bo, ty, ph⟩ := req
    rcases t with _ | t <;> rcases bo with _ | bo <;> rcases ty with _ | ty <;>
      rcases ph with _ | ph <;>
      simp [TemplateBook.applyUpdate, TemplateNode.set_title, TemplateNode.set_body,
        TemplateNode.set_node_type, TemplateNode.set_placeholder]
  · intro k hk
    rw [NodeMap.get_modify, if_neg hk]

/-- Witness for C8 at a concrete aggregate: update node 4, setting the
title, clearing body and placeholder, leaving the type; node 9 and the
rest of the aggregate are untouched. -/
theorem update_node_frame_witness :
    NodeMap.get updateDemoBook.nodes 4 = some
      { id := 4, parent := none, children := [], title := "Old", body := some "b",
        node_type := .Section, placeholder := some "p" } ∧
    ((TemplateBook.update_node updateDemoBook 4 updateDemoReq).1 = .ok () ∧
      NodeMap.get (TemplateBook.update_node updateDemoBook 4 updateDemoReq).2.nodes 4 = some
        { id := 4, parent := none, children := [], title := "New", body := none,
          node_type := .Section, placeholder := none } ∧
      NodeMap.get (TemplateBook.update_node updateDemoBook 4 updateDemoReq).2.nodes 9 =
        NodeMap.get updateDemoBook.nodes 9 ∧
      (TemplateBook.update_node updateDemoBook 4 updateDemoReq).2.root_nodes = [4, 9]) := by
  have hm := update_node_changes_exactly_requested_fields updateDemoBook 4 updateDemoReq
    { id := 4, parent := none, children := [], title := "Old", body := some "b",
      node_type := .Section, placeholder := some "p" } rfl
  exact ⟨rfl, hm.1, hm.2.1, hm.2.2.1 9 (by decide), hm.2.2.2.1⟩



/-- Appending one position to a non-empty path appends one hyphenated
segment to its rendering. -/
theorem pathString_append (path : List Nat) (j : Nat) (h : path ≠ []) :
    pathString (path ++ [j]) = pathString path ++ "-" ++ toString j := by
  induction path with
  | nil => exact absurd rfl h
  | cons i rest ih =>
    cases rest with
    | nil => rfl
    | cons i' rest' =>
      have ih' := ih (by simp)
      simp only [List.cons_append, pathString] at ih' ⊢
      simp only [List.append_eq]
      rw [ih']
      simp [String.append_assoc]

/-- The source's incremental numbering of a subtree agrees with the
spec-side path rendering, when seeded with the rendered path. -/
theorem collect_children_eq_spec (nodes : NodeMap) :
    ∀ (fuel parent_id : Nat) (path : List Nat), path ≠ [] →
      collect_children_ids nodes fuel parent_id (pathString path) =
        hierSpecChildren nodes fuel parent_id path := by
  intro fuel
  induction fuel with
  | zero => intros; rfl
  | succ f ih =>
    intro parent_id path hpath
    simp only [collect_children_ids, hierSpecChildren]
    split
    · rfl
    · apply List.flatMap_congr
      intro ji _
      rw [← pathString_append path (ji.1 + 1) hpath, ih ji.2 (path ++ [ji.1 + 1]) (by simp)]

/-- The source enumeration equals the spec-side path-based numbering. -/
theorem build_hierarchical_eq_spec (b : TemplateBook) :
    build_hierarchical_ids b = hierSpec b := by
  unfold build_hierarchical_ids hierSpec
  apply List.flatMap_congr
  intro ir _
  have h := collect_children_eq_spec b.nodes b.nodes.length ir.2 [ir.1 + 1] (by simp)
  simp only [pathString] at h
  rw [← h]
  rfl

/-- C6: the positional-numbering enumeration is the depth-first sequence
in which the i-th root (1-based list order) is numbered `i` and the j-th
child of a node numbered `p` is numbered `p-j`; on two root Sections each
with two Content children it yields exactly
`["1","1-1","1-2","2","2-1","2-2"]` in that order. -/
theorem positional_numbering_correct :
    (∀ b : TemplateBook, build_hierarchical_ids b = hierSpec b) ∧
      (build_hierarchical_ids numberingDemoBook).map Prod.fst =
        ["1", "1-1", "1-2", "2", "2-1", "2-2"] :=
  ⟨build_hierarchical_eq_spec, by decide⟩

/-- C7 (amended): reference resolution follows the four-step precedence
with zero identifier-prefix matches falling through to the title scan. -/
theorem resolve_follows_amended_precedence :
    ∀ (b : TemplateBook) (s : String), resolve_id b s = resolveSpec b s := by
  intro b s
  unfold resolve_id resolveSpec resolveStepPositional resolveStepUuid resolveStepIdScan
    resolveStepTitle
  by_cases h1 : is_hierarchical_id s
  · simp only [if_pos h1]
    simp
  · simp only [if_neg h1]
    rcases h2 : parse_node_id s with _ | id
    · rcases h3 : idCandidates b s with _ | ⟨id1, rest1⟩
      · rcases h4 : titleCandidates b s with _ | ⟨t1, rest2⟩
        · simp
        · rcases rest2 with _ | ⟨t2, rest3⟩ <;> simp
      · rcases rest1 with _ | ⟨id2, rest2⟩ <;> simp
    · simp

/-- C7 (against the claim as stated): a reference with zero
identifier-prefix matches does not fail as NotFound — it falls through to
the title scan, which here resolves it. -/
theorem resolve_zero_prefix_matches_succeeds :
    is_hierarchical_id "alp" = false ∧ parse_node_id "alp" = none ∧
      idCandidates titleDemoBook "alp" = [] ∧
      resolve_id titleDemoBook "alp" = .ok 1 :=
  ⟨rfl, rfl, rfl, rfl⟩



/-! ## Forest lemma kit -/

mutual

/-- Simultaneous structural induction over trees and forests (tree side). -/
theorem forestInductionT {P : NTree → Prop} {Q : List NTree → Prop}
    (hnode : ∀ i d cs, Q cs → P (.node i d cs)) (hnil : Q [])
    (hcons : ∀ t ts, P t → Q ts → Q (t :: ts)) : ∀ t : NTree, P t
  | .node i d cs => hnode i d cs (forestInductionF hnode hnil hcons cs)

/-- Simultaneous structural induction over trees and forests (forest side). -/
theorem forestInductionF {P : NTree → Prop} {Q : List NTree → Prop}
    (hnode : ∀ i d cs, Q cs → P (.node i d cs)) (hnil : Q [])
    (hcons : ∀ t ts, P t → Q ts → Q (t :: ts)) : ∀ ts : List NTree, Q ts
  | [] => hnil
  | t :: ts =>
    hcons t ts (forestInductionT hnode hnil hcons t) (forestInductionF hnode hnil hcons ts)

end

theorem sizeT_pos : ∀ t : NTree, 1 ≤ sizeT t
  | .node _ _ cs => by simp [sizeT]

theorem relabel_snd :
    (∀ (t : NTree) (c : Nat), (relabelT c t).2 = c + sizeT t) ∧
      (∀ (F : List NTree) (c : Nat), (relabelF c F).2 = c + sizeF F) := by
  refine ⟨forestInductionT ?hnode ?hnil ?hcons, forestInductionF ?hnode ?hnil ?hcons⟩
  case hnode =>
    intro i d cs ih c
    simp only [relabelT, sizeT]
    rw [ih (c + 1)]
    omega
  case hnil => intro c; simp [relabelF, sizeF]
  case hcons =>
    intro t ts iht ihts c
    simp only [relabelF, sizeF]
    rw [iht c, ihts (c + sizeT t)]
    omega

theorem ids_relabel :
    (∀ (t : NTree) (c : Nat), idsT (relabelT c t).1 = List.range' c (sizeT t)) ∧
      (∀ (F : List NTree) (c : Nat), idsF (relabelF c F).1 = List.range' c (sizeF F)) := by
  refine ⟨forestInductionT ?hnode ?hnil ?hcons, forestInductionF ?hnode ?hnil ?hcons⟩
  case hnode =>
    intro i d cs ih c
    simp only [relabelT, idsT, sizeT]
    rw [ih (c + 1)]
    have := List.range'_succ c (sizeF cs) 1
    rw [Nat.add_comm 1 (sizeF cs), this]
  case hnil => intro c; simp [relabelF, idsF, sizeF]
  case hcons =>
    intro t ts iht ihts c
    simp only [relabelF, idsF, sizeF]
    rw [iht c, relabel_snd.1 t c, ihts (c + sizeT t)]
    have := List.range'_append c (sizeT t) (sizeF ts) 1
    rw [Nat.one_mul] at this
    rw [this, Nat.add_comm (sizeF ts) (sizeT t)]

theorem shape_relabel :
    (∀ (t : NTree) (c : Nat), shapeT (relabelT c t).1 = shapeT t) ∧
      (∀ (F : List NTree) (c : Nat), shapeF (relabelF c F).1 = shapeF F) := by
  refine ⟨forestInductionT ?hnode ?hnil ?hcons, forestInductionF ?hnode ?hnil ?hcons⟩
  case hnode =>
    intro i d cs ih c
    simp only [relabelT, shapeT]
    rw [ih (c + 1)]
  case hnil => intro c; simp [relabelF, shapeF]
  case hcons =>
    intro t ts iht ihts c
    simp only [relabelF, shapeF]
    rw [iht c, ihts (relabelT c t).2]

theorem nest_relabel :
    (∀ (t : NTree) (c : Nat), nestT (relabelT c t).1 = nestT t) ∧
      (∀ (F : List NTree) (c : Nat), nestF (relabelF c F).1 = nestF F) := by
  refine ⟨forestInductionT ?hnode ?hnil ?hcons, forestInductionF ?hnode ?hnil ?hcons⟩
  case hnode =>
    intro i d cs ih c
    simp only [relabelT, nestT]
    rw [ih (c + 1)]
  case hnil => intro c; simp [relabelF, nestF]
  case hcons =>
    intro t ts iht ihts c
    simp only [relabelF, nestF]
    rw [iht c, ihts (relabelT c t).2]

theorem size_relabel :
    (∀ (t : NTree) (c : Nat), sizeT (relabelT c t).1 = sizeT t) ∧
      (∀ (F : List NTree) (c : Nat), sizeF (relabelF c F).1 = sizeF F) := by
  refine ⟨forestInductionT ?hnode ?hnil ?hcons, forestInductionF ?hnode ?hnil ?hcons⟩
  case hnode =>
    intro i d cs ih c
    simp only [relabelT, sizeT]
    rw [ih (c + 1)]
  case hnil => intro c; simp [relabelF, sizeF]
  case hcons =>
    intro t ts iht ihts c
    simp only [relabelF, sizeF]
    rw [iht c, ihts (relabelT c t).2]

theorem length_relabelF (F : List NTree) (c : Nat) :
    (relabelF c F).1.length = F.length := by
  induction F generalizing c with
  | nil => simp [relabelF]
  | cons t ts ih => simp [relabelF, ih]

theorem length_shapeF (F : List NTree) : (shapeF F).length = F.length := by
  induction F with
  | nil => rfl
  | cons t ts ih => simp [shapeF, ih]

theorem keys_entries :
    (∀ (t : NTree) (p : Option Nat), NodeMap.keys (entriesT p t) = idsT t) ∧
      (∀ (F : List NTree) (p : Option Nat), NodeMap.keys (entriesF p F) = idsF F) := by
  refine ⟨forestInductionT ?hnode ?hnil ?hcons, forestInductionF ?hnode ?hnil ?hcons⟩
  case hnode =>
    intro i d cs ih p
    simp only [entriesT, idsT, NodeMap.keys, List.map_cons]
    rw [show List.map Prod.fst (entriesF (some i) cs) = NodeMap.keys (entriesF (some i) cs) from rfl,
      ih (some i)]
  case hnil => intro p; rfl
  case hcons =>
    intro t ts iht ihts p
    simp only [entriesF, idsF, NodeMap.keys, List.map_append]
    rw [show List.map Prod.fst (entriesT p t) = NodeMap.keys (entriesT p t) from rfl,
      show List.map Prod.fst (entriesF p ts) = NodeMap.keys (entriesF p ts) from rfl,
      iht p, ihts p]

theorem length_entries :
    (∀ (t : NTree) (p : Option Nat), (entriesT p t).length = sizeT t) ∧
      (∀ (F : List NTree) (p : Option Nat), (entriesF p F).length = sizeF F) := by
  refine ⟨forestInductionT ?hnode ?hnil ?hcons, forestInductionF ?hnode ?hnil ?hcons⟩
  case hnode =>
    intro i d cs ih p
    simp only [entriesT, sizeT, List.length_cons]
    rw [ih (some i)]
    omega
  case hnil => intro p; rfl
  case hcons =>
    intro t ts iht ihts p
    simp only [entriesF, sizeF, List.length_append]
    rw [iht p, ihts p]

theorem idsF_length : ∀ F : List NTree, (idsF F).length = sizeF F := by
  intro F
  rw [← keys_entries.2 F none]
  simpa [NodeMap.keys] using (length_entries.2 F none)



namespace NodeMap

theorem insert_of_not_mem (m : NodeMap) (k : Nat) (v : TemplateNode)
    (h : k ∉ keys m) : insert m k v = m ++ [(k, v)] := by
  induction m with
  | nil => rfl
  | cons hd tl ih =>
    obtain ⟨k₀, v₀⟩ := hd
    simp only [keys, List.map_cons, List.mem_cons] at h
    push_neg at h
    simp [insert, h.1, ih (by simpa [keys] using h.2)]

theorem get_append (xs ys : NodeMap) (k : Nat) :
    get (xs ++ ys) k = match get xs k with | some v => some v | none => get ys k := by
  induction xs with
  | nil => simp [get]
  | cons hd tl ih =>
    obtain ⟨k₀, v₀⟩ := hd
    by_cases h : k = k₀ <;> simp [get, h, ih]

theorem get_append_left (xs ys : NodeMap) (k : Nat) (h : k ∈ keys xs) :
    get (xs ++ ys) k = get xs k := by
  rw [get_append]
  rcases hg : get xs k with _ | v
  · exact absurd h ((get_eq_none_iff xs k).mp hg)
  · rfl

theorem get_append_right (xs ys : NodeMap) (k : Nat) (h : k ∉ keys xs) :
    get (xs ++ ys) k = get ys k := by
  rw [get_append, (get_eq_none_iff xs k).mpr h]

theorem modify_append_left (xs ys : NodeMap) (k : Nat) (f : TemplateNode → TemplateNode)
    (h : k ∈ keys xs) : modify (xs ++ ys) k f = modify xs k f ++ ys := by
  induction xs with
  | nil => simp [keys] at h
  | cons hd tl ih =>
    obtain ⟨k₀, v₀⟩ := hd
    by_cases hk : k = k₀
    · simp [modify, hk]
    · simp only [keys, List.map_cons, List.mem_cons] at h
      rcases h with h | h
      · exact absurd h hk
      · simp [modify, hk, ih (by simpa [keys] using h)]

theorem modify_append_right (xs ys : NodeMap) (k : Nat) (f : TemplateNode → TemplateNode)
    (h : k ∉ keys xs) : modify (xs ++ ys) k f = xs ++ modify ys k f := by
  induction xs with
  | nil => rfl
  | cons hd tl ih =>
    obtain ⟨k₀, v₀⟩ := hd
    simp only [keys, List.map_cons, List.mem_cons] at h
    push_neg at h
    simp [modify, h.1, ih (by simpa [keys] using h.2)]

theorem modify_modify_same (m : NodeMap) (k : Nat)
    (f g : TemplateNode → TemplateNode) :
    modify (modify m k f) k g = modify m k (fun v => g (f v)) := by
  induction m with
  | nil => rfl
  | cons hd tl ih =>
    obtain ⟨k₀, v₀⟩ := hd
    by_cases h : k = k₀ <;> simp [modify, h, ih]

theorem keys_append (xs ys : NodeMap) : keys (xs ++ ys) = keys xs ++ keys ys := by
  simp [keys]

end NodeMap

/-! ## Depth through the parent chain -/

theorem hasDepth_ge_one {m : NodeMap} {i d : Nat} (h : HasDepth m i d) : 1 ≤ d := by
  cases h <;> omega

/-- The ancestor walk computes exactly the chain depth, for chains and
counters comfortably below the 255 ceiling. -/
theorem walk_of_hasDepth {m : NodeMap} :
    ∀ {i d : Nat}, HasDepth m i d →
      ∀ (k gas : Nat), 1 ≤ k → k + d ≤ 255 → d ≤ gas + 1 →
        TemplateBook.depth_of_walk m gas i k = k + d - 1 := by
  intro i d h
  induction h with
  | root j n hget hp =>
    intro k gas hk hle hgas
    cases gas with
    | zero =>
      simp only [TemplateBook.depth_of_walk]
      omega
    | succ g =>
      simp only [TemplateBook.depth_of_walk, hget, hp, Option.bind]
      omega
  | step j p n d hget hp hd ih =>
    intro k gas hk hle hgas
    have hd1 : 1 ≤ d := hasDepth_ge_one hd
    cases gas with
    | zero => omega
    | succ g =>
      simp only [TemplateBook.depth_of_walk, hget, hp, Option.bind]
      have hmin : min (k + 1) 255 = k + 1 := by omega
      rw [hmin, if_neg (by omega)]
      rw [ih (k + 1) g (by omega) (by omega) (by omega)]
      omega

/-- `depth_of` computes the chain depth, for depths up to 254. -/
theorem depth_of_of_hasDepth {b : TemplateBook} {i d : Nat}
    (h : HasDepth b.nodes i d) (hle : d ≤ 254) :
    TemplateBook.depth_of b i = d := by
  unfold TemplateBook.depth_of
  rw [walk_of_hasDepth h 1 254 (by omega) (by omega) (by omega)]
  omega

/-- Chain depths are stable under map changes that preserve presence and
parent pointers of all present nodes. -/
theorem hasDepth_mono {m m' : NodeMap}
    (hpres : ∀ j n, NodeMap.get m j = some n →
      ∃ n', NodeMap.get m' j = some n' ∧ n'.parent = n.parent) :
    ∀ {i d : Nat}, HasDepth m i d → HasDepth m' i d := by
  intro i d h
  induction h with
  | root j n hget hp =>
    obtain ⟨n', hget', hp'⟩ := hpres j n hget
    exact .root j n' hget' (hp' ▸ hp)
  | step j p n d hget hp hd ih =>
    obtain ⟨n', hget', hp'⟩ := hpres j n hget
    exact .step j p n' d hget' (hp' ▸ hp) ih



/-! ## Import helper lemmas -/

theorem nestT_pos : ∀ t : NTree, 1 ≤ nestT t
  | .node _ _ cs => by simp [nestT]

theorem length_le_sizeF : ∀ F : List NTree, F.length ≤ sizeF F := by
  intro F
  induction F with
  | nil => simp [sizeF]
  | cons t ts ih =>
    simp only [sizeF, List.length_cons]
    have := sizeT_pos t
    omega

theorem nest_le_size :
    (∀ t : NTree, nestT t ≤ sizeT t) ∧ (∀ F : List NTree, nestF F ≤ sizeF F) := by
  refine ⟨forestInductionT ?hnode ?hnil ?hcons, forestInductionF ?hnode ?hnil ?hcons⟩
  case hnode => intro i d cs ih; simp only [nestT, sizeT]; omega
  case hnil => simp [nestF, sizeF]
  case hcons =>
    intro t ts iht ihts
    simp only [nestF, sizeF]
    omega

theorem hasDepth_containsKey {m : NodeMap} {i d : Nat} (h : HasDepth m i d) :
    NodeMap.containsKey m i = true := by
  cases h with
  | root _ n hget _ => simp [NodeMap.containsKey, hget]
  | step _ _ n _ hget _ _ => simp [NodeMap.containsKey, hget]

theorem hasDepth_mem_keys {m : NodeMap} {i d : Nat} (h : HasDepth m i d) :
    i ∈ NodeMap.keys m := by
  have := hasDepth_containsKey h
  by_contra hmem
  rw [NodeMap.containsKey, (NodeMap.get_eq_none_iff m i).mpr hmem] at this
  exact Bool.noConfusion this

theorem parse_typeTag : ∀ ty : NodeType,
    EjectService.parse_import_type (EjectService.typeTag ty) = .ok ty
  | .Section => rfl
  | .Content => rfl

theorem modify_id_nodeMap (m : NodeMap) (k : Nat) :
    NodeMap.modify m k (fun v => v) = m := by
  induction m with
  | nil => rfl
  | cons hd tl ih =>
    obtain ⟨k₀, v₀⟩ := hd
    by_cases h : k = k₀ <;> simp [NodeMap.modify, h, ih]

theorem add_child_usizeMax (n : TemplateNode) (cid : Nat)
    (h : n.children.length ≤ usizeMax) :
    n.add_child cid usizeMax = { n with children := n.children ++ [cid] } := by
  unfold TemplateNode.add_child
  rw [Nat.min_eq_right h, List.insertIdx_length_self]

theorem entries_childLen :
    (∀ (t : NTree) (p : Option Nat) (k : Nat) (n : TemplateNode),
      NodeMap.get (entriesT p t) k = some n → n.children.length ≤ sizeT t) ∧
    (∀ (F : List NTree) (p : Option Nat) (k : Nat) (n : TemplateNode),
      NodeMap.get (entriesF p F) k = some n → n.children.length ≤ sizeF F) := by
  refine ⟨forestInductionT ?hnode ?hnil ?hcons, forestInductionF ?hnode ?hnil ?hcons⟩
  case hnode =>
    intro i d cs ih p k n hget
    simp only [entriesT, NodeMap.get] at hget
    split at hget
    · cases hget
      have h1 : (topIds cs).length = cs.length := by simp [topIds]
      have h2 := length_le_sizeF cs
      simp only [sizeT]
      simp [h1]
      omega
    · have := ih (some i) k n hget
      simp only [sizeT]
      omega
  case hnil => intro p k n hget; simp [entriesF, NodeMap.get] at hget
  case hcons =>
    intro t ts iht ihts p k n hget
    simp only [entriesF] at hget
    rw [NodeMap.get_append] at hget
    simp only [sizeF]
    split at hget
    all_goals rename_i hsplit
    · cases hget
      have := iht p k _ hsplit
      omega
    · have := ihts p k n hget
      omega

/-- `add_node` success, parent case: the exact resulting aggregate. -/
theorem add_node_ok_some (b : TemplateBook) (nid : Nat) (req : AddNodeRequest) (pid : Nat)
    (hreq : req.parent = some pid)
    (hget : NodeMap.containsKey b.nodes pid = true)
    (hdepth : ¬ (TemplateBook.depth_of b pid + 1) % 256 > b.max_depth) :
    TemplateBook.add_node b nid req =
      (.ok nid,
        { b with
          nodes := NodeMap.modify (NodeMap.insert b.nodes nid (TemplateBook.newNode nid req)) pid (fun p => p.add_child nid req.position) }) := by
  unfold TemplateBook.add_node TemplateBook.add_node.add_node_at_depth
  simp only [hreq]
  rw [if_pos hget, if_neg hdepth]
  rcases hgi : NodeMap.get (NodeMap.insert b.nodes nid (TemplateBook.newNode nid req)) pid
    with _ | v
  · exfalso
    rw [NodeMap.get_insert] at hgi
    split at hgi
    · exact Option.noConfusion hgi
    · rw [NodeMap.containsKey, hgi] at hget
      exact Bool.noConfusion hget
  · rfl

/-- `add_node` success, root case: the exact resulting aggregate. -/
theorem add_node_ok_root (b : TemplateBook) (nid : Nat) (req : AddNodeRequest)
    (hreq : req.parent = none) (hdepth : ¬ 1 > b.max_depth) :
    TemplateBook.add_node b nid req =
      (.ok nid,
        { b with nodes := NodeMap.insert b.nodes nid (TemplateBook.newNode nid req),
                 root_nodes :=
                   b.root_nodes.insertIdx (min req.position b.root_nodes.length) nid }) := by
  unfold TemplateBook.add_node TemplateBook.add_node.add_node_at_depth
  simp only [hreq]
  rw [if_neg hdepth]



theorem importedBook_nil (b : TemplateBook) (c : Nat) (p : Option Nat) :
    importedBook b c p [] = b := by
  unfold importedBook
  rcases p with _ | pid
  · simp only [relabelF, entriesF, topIds, List.map_nil, List.append_nil]
  · simp only [relabelF, entriesF, topIds, List.map_nil, List.append_nil]
    rw [show (fun n : TemplateNode =>
        { id := n.id, parent := n.parent, children := n.children, title := n.title,
          body := n.body, node_type := n.node_type, placeholder := n.placeholder }) =
        (fun v : TemplateNode => v) from rfl, modify_id_nodeMap]

theorem import_children_nil (b : TemplateBook) (c : Nat) (p : Option Nat) (d : Nat) :
    EjectService.import_children b c p [] d = .ok (b, c) := by
  simp [EjectService.import_children]



theorem modify_funext (m : NodeMap) (k : Nat) (f g : TemplateNode → TemplateNode)
    (h : ∀ v, f v = g v) : NodeMap.modify m k f = NodeMap.modify m k g := by
  induction m with
  | nil => rfl
  | cons hd tl ih =>
    obtain ⟨k₀, v₀⟩ := hd
    by_cases hk : k = k₀ <;> simp [NodeMap.modify, hk, h, ih]

theorem modify_congr_of_get (m : NodeMap) (k : Nat) (v : TemplateNode)
    (f g : TemplateNode → TemplateNode) (hget : NodeMap.get m k = some v)
    (hfg : f v = g v) : NodeMap.modify m k f = NodeMap.modify m k g := by
  induction m with
  | nil => rfl
  | cons hd tl ih =>
    obtain ⟨k₀, v₀⟩ := hd
    by_cases h : k = k₀
    · subst h
      simp only [NodeMap.get, if_pos rfl] at hget
      cases hget
      simp [NodeMap.modify, hfg]
    · simp only [NodeMap.get, if_neg h] at hget
      simp [NodeMap.modify, h, ih hget]

/-- The central import lemma: importing the export image of forest `F`
under `parent` computes exactly `importedBook` — the relabelled entries
appended to the map, the relabelled roots linked under the parent (or the
root list) — and hands back the advanced id counter. -/
theorem import_children_ok : ∀ (fuel : Nat) (F : List NTree) (b : TemplateBook)
    (c : Nat) (parent : Option Nat) (d : Nat),
    sizeF F ≤ fuel →
    (∀ k, k ∈ NodeMap.keys b.nodes → k < c) →
    (∀ pid, parent = some pid → HasDepth b.nodes pid d) →
    (parent = none → d = 0) →
    d + nestF F ≤ 32 →
    d + nestF F ≤ b.max_depth →
    (∀ k n, NodeMap.get b.nodes k = some n → n.children.length ≤ b.nodes.length) →
    b.root_nodes.length ≤ b.nodes.length →
    b.nodes.length + sizeF F ≤ usizeMax →
    EjectService.import_children b c parent (ejectF F) d =
      .ok (importedBook b c parent F, c + sizeF F) := by
  intro fuel
  induction fuel with
  | zero =>
    intro F b c parent d hsz hkeys hparS hparN h32 hmax hcl hrl husz
    have hF : F = [] := by
      cases F with
      | nil => rfl
      | cons t ts =>
        exfalso
        have := sizeT_pos t
        simp only [sizeF] at hsz
        omega
    subst hF
    rw [show ejectF [] = [] from rfl, import_children_nil, importedBook_nil]
    simp [sizeF]
  | succ fl ih =>
    intro F b c parent d hsz hkeys hparS hparN h32 hmax hcl hrl husz
    cases F with
    | nil =>
      rw [show ejectF [] = [] from rfl, import_children_nil, importedBook_nil]
      simp [sizeF]
    | cons t rest =>
      rcases t with ⟨i, data, cs⟩
      have hst : sizeT (NTree.node i data cs) = 1 + sizeF cs := rfl
      have hsF : sizeF (NTree.node i data cs :: rest) = 1 + sizeF cs + sizeF rest := rfl
      have hnle : 1 + nestF cs ≤ nestF (NTree.node i data cs :: rest) := by
        simp only [nestF, nestT]
        omega
      have hnle2 : nestF rest ≤ nestF (NTree.node i data cs :: rest) := by
        simp only [nestF]
        omega
      rw [hsF] at hsz husz
      have hd31 : d + 1 ≤ 32 := by omega
      have hcfresh : c ∉ NodeMap.keys b.nodes := fun hmem => absurd (hkeys c hmem) (by omega)
      have husz' : b.nodes.length + (1 + sizeF cs + sizeF rest) ≤ 2 ^ 64 - 1 := by
        simpa only [usizeMax] using husz
      rw [show ejectF (NTree.node i data cs :: rest) =
        EjectTreeNode.mk (idText i) data.title (EjectService.typeTag data.node_type)
          data.body data.placeholder (ejectF cs) :: ejectF rest from rfl]
      simp only [EjectService.import_children, EjectService.import_tree_node]
      rw [if_neg (show ¬ d ≥ EjectService.IMPORT_MAX_RECURSION by
        simp only [EjectService.IMPORT_MAX_RECURSION]; omega)]
      simp only [parse_typeTag]
      rcases parent with _ | pid
      · -- root-level import
        have hd0 : d = 0 := hparN rfl
        subst hd0
        have hrlen : b.root_nodes.length ≤ usizeMax := by
          simp only [usizeMax]
          omega
        have hb1 := add_node_ok_root b c
          { parent := none, title := data.title, node_type := data.node_type,
            body := data.body, placeholder := data.placeholder, position := usizeMax }
          rfl (by omega)
        rw [show min usizeMax b.root_nodes.length = b.root_nodes.length from
          Nat.min_eq_right hrlen, List.insertIdx_length_self,
          NodeMap.insert_of_not_mem _ _ _ hcfresh] at hb1
        rw [show TemplateBook.newNode c
            { parent := none, title := data.title, node_type := data.node_type,
              body := data.body, placeholder := data.placeholder, position := usizeMax } =
            { id := c, parent := none, children := [], title := data.title, body := data.body,
              node_type := data.node_type, placeholder := data.placeholder } from rfl] at hb1
        rw [hb1]
        simp only [Nat.zero_add]
        have hget1 : NodeMap.get (b.nodes ++ [(c, { id := c, parent := none, children := [], title := data.title, body := data.body, node_type := data.node_type, placeholder := data.placeholder })]) c = some { id := c, parent := none, children := [], title := data.title, body := data.body, node_type := data.node_type, placeholder := (data.placeholder : Option String) } := by
          rw [NodeMap.get_append_right _ _ _ hcfresh]
          simp [NodeMap.get]
        have hchild := ih cs
          { title := b.title, max_depth := b.max_depth,
            nodes := b.nodes ++ [(c,
              { id := c, parent := none, children := [], title := data.title,
                body := data.body, node_type := data.node_type,
                placeholder := data.placeholder })],
            root_nodes := b.root_nodes ++ [c] }
          (c + 1) (some c) 1
          (by omega)
          (by
            intro k hk
            simp only [NodeMap.keys_append] at hk
            rcases List.mem_append.mp hk with h | h
            · exact Nat.lt_succ_of_lt (hkeys k h)
            · simp only [NodeMap.keys, List.map_cons, List.map_nil,
                List.mem_singleton] at h
              omega)
          (by
            intro pid' hpid'
            cases hpid'
            exact .root _ _ hget1 rfl)
          (by intro h; exact Option.noConfusion h)
          (by omega)
          (by
            show 1 + nestF cs ≤ b.max_depth
            omega)
          (by
            intro k n hkn
            simp only [List.length_append, List.length_cons, List.length_nil]
            rw [NodeMap.get_append] at hkn
            split at hkn
            · rename_i hg
              cases hkn
              have := hcl k _ hg
              omega
            · simp only [NodeMap.get] at hkn
              split at hkn
              · cases hkn
                simp
              · exact Option.noConfusion hkn)
          (by
            simp only [List.length_append, List.length_cons, List.length_nil]
            omega)
          (by
            show List.length (b.nodes ++ [_]) + sizeF cs ≤ usizeMax
            simp only [List.length_append, List.length_cons, List.length_nil, usizeMax]
            omega)
        rw [hchild]
        have hc2 : (relabelT c (NTree.node i data cs)).2 = c + 1 + sizeF cs := by
          rw [relabel_snd.1, hst]
          omega
        have hb2 : importedBook
            { title := b.title, max_depth := b.max_depth,
              nodes := b.nodes ++ [(c,
                { id := c, parent := none, children := [], title := data.title,
                  body := data.body, node_type := data.node_type,
                  placeholder := data.placeholder })],
              root_nodes := b.root_nodes ++ [c] } (c + 1) (some c) cs =
            { title := b.title, max_depth := b.max_depth,
              nodes := b.nodes ++ entriesT none (relabelT c (NTree.node i data cs)).1,
              root_nodes := b.root_nodes ++ [c] } := by
          unfold importedBook
          simp only [relabelT, entriesT]
          rw [NodeMap.modify_append_right _ _ _ _ hcfresh]
          simp [NodeMap.modify, List.append_assoc]
        rw [hb2]
        simp only []
        have hrest := ih rest
          { title := b.title, max_depth := b.max_depth,
            nodes := b.nodes ++ entriesT none (relabelT c (NTree.node i data cs)).1,
            root_nodes := b.root_nodes ++ [c] }
          (c + 1 + sizeF cs) none 0
          (by omega)
          (by
            intro k hk
            simp only [NodeMap.keys_append] at hk
            rcases List.mem_append.mp hk with h | h
            · have := hkeys k h
              omega
            · rw [show NodeMap.keys (entriesT none (relabelT c (NTree.node i data cs)).1) =
                idsT (relabelT c (NTree.node i data cs)).1 from keys_entries.1 _ _,
                ids_relabel.1] at h
              rw [List.mem_range'] at h
              obtain ⟨j, hj, hkj⟩ := h
              rw [hst] at hj
              omega)
          (by intro pid' hpid'; exact Option.noConfusion hpid')
          (by intro _; rfl)
          (by omega)
          (by
            show 0 + nestF rest ≤ b.max_depth
            omega)
          (by
            intro k n hkn
            simp only [List.length_append]
            rw [show (entriesT none (relabelT c (NTree.node i data cs)).1).length =
              sizeT (relabelT c (NTree.node i data cs)).1 from length_entries.1 _ _,
              size_relabel.1]
            rw [NodeMap.get_append] at hkn
            split at hkn
            · rename_i hg
              cases hkn
              have := hcl k _ hg
              omega
            · have := entries_childLen.1 _ _ _ _ hkn
              rw [size_relabel.1] at this
              omega)
          (by
            simp only [List.length_append, List.length_cons, List.length_nil]
            rw [show (entriesT none (relabelT c (NTree.node i data cs)).1).length =
              sizeT (relabelT c (NTree.node i data cs)).1 from length_entries.1 _ _,
              size_relabel.1]
            have := sizeT_pos (NTree.node i data cs)
            omega)
          (by
            simp only [List.length_append, usizeMax]
            rw [show (entriesT none (relabelT c (NTree.node i data cs)).1).length =
              sizeT (relabelT c (NTree.node i data cs)).1 from length_entries.1 _ _,
              size_relabel.1, hst]
            omega)
        rw [hrest]
        have hcnt : c + 1 + sizeF cs + sizeF rest = c + sizeF (NTree.node i data cs :: rest) := by
          rw [hsF]
          omega
        rw [hcnt]
        have hbooks : importedBook
            { title := b.title, max_depth := b.max_depth,
              nodes := b.nodes ++ entriesT none (relabelT c (NTree.node i data cs)).1,
              root_nodes := b.root_nodes ++ [c] } (c + 1 + sizeF cs) none rest =
            importedBook b c none (NTree.node i data cs :: rest) := by
          unfold importedBook
          rw [← hc2]
          simp only [relabelF]
          simp only [entriesF, topIds, List.map_cons, NTree.rootId, relabelT]
          simp [List.append_assoc]
        rw [hbooks]
      · -- import under an existing parent pid at depth d
        have hdep : HasDepth b.nodes pid d := hparS pid rfl
        have hd1 : 1 ≤ d := hasDepth_ge_one hdep
        have hpidmem : pid ∈ NodeMap.keys b.nodes := hasDepth_mem_keys hdep
        have hdof : TemplateBook.depth_of b pid = d := depth_of_of_hasDepth hdep (by omega)
        obtain ⟨np, hnp⟩ : ∃ np, NodeMap.get b.nodes pid = some np := by
          cases hdep with
          | root _ n hget _ => exact ⟨n, hget⟩
          | step _ _ n _ hget _ _ => exact ⟨n, hget⟩
        have hnplen : np.children.length ≤ usizeMax := by
          have := hcl pid np hnp
          simp only [usizeMax]
          omega
        have hb1 := add_node_ok_some b c
          { parent := some pid, title := data.title, node_type := data.node_type,
            body := data.body, placeholder := data.placeholder, position := usizeMax }
          pid rfl (hasDepth_containsKey hdep)
          (by
            rw [hdof, Nat.mod_eq_of_lt (by omega : d + 1 < 256)]
            omega)
        rw [show TemplateBook.newNode c
            { parent := some pid, title := data.title, node_type := data.node_type,
              body := data.body, placeholder := data.placeholder, position := usizeMax } =
            { id := c, parent := some pid, children := [], title := data.title,
              body := data.body, node_type := data.node_type,
              placeholder := data.placeholder } from rfl,
          NodeMap.insert_of_not_mem _ _ _ hcfresh,
          NodeMap.modify_append_left _ _ _ _ hpidmem,
          modify_congr_of_get b.nodes pid np _
            (fun n => { id := n.id, parent := n.parent, children := n.children ++ [c], title := n.title, body := n.body, node_type := n.node_type, placeholder := n.placeholder })
            hnp (add_child_usizeMax np c hnplen)] at hb1
        rw [hb1]
        simp only []
        have hkeysmod : NodeMap.keys (NodeMap.modify b.nodes pid
            (fun n => { id := n.id, parent := n.parent, children := n.children ++ [c], title := n.title, body := n.body, node_type := n.node_type, placeholder := n.placeholder })) =
            NodeMap.keys b.nodes := NodeMap.keys_modify _ _ _
        have hcmod : c ∉ NodeMap.keys (NodeMap.modify b.nodes pid
            (fun n => { id := n.id, parent := n.parent, children := n.children ++ [c], title := n.title, body := n.body, node_type := n.node_type, placeholder := n.placeholder })) := by
          rw [hkeysmod]
          exact hcfresh
        have hget1 : NodeMap.get (NodeMap.modify b.nodes pid
            (fun n => { id := n.id, parent := n.parent, children := n.children ++ [c], title := n.title, body := n.body, node_type := n.node_type, placeholder := n.placeholder }) ++
            [(c, { id := c, parent := some pid, children := [], title := data.title, body := data.body, node_type := data.node_type, placeholder := data.placeholder })]) c =
            some { id := c, parent := some pid, children := [], title := data.title, body := data.body, node_type := data.node_type, placeholder := (data.placeholder : Option String) } := by
          rw [NodeMap.get_append_right _ _ _ hcmod]
          simp [NodeMap.get]
        have hpres1 : ∀ j n, NodeMap.get b.nodes j = some n →
            ∃ n', NodeMap.get (NodeMap.modify b.nodes pid
              (fun n => { id := n.id, parent := n.parent, children := n.children ++ [c], title := n.title, body := n.body, node_type := n.node_type, placeholder := n.placeholder }) ++
              [(c, { id := c, parent := some pid, children := [], title := data.title, body := data.body, node_type := data.node_type, placeholder := data.placeholder })]) j =
              some n' ∧ n'.parent = n.parent := by
          intro j n hj
          have hjmem : j ∈ NodeMap.keys b.nodes := by
            by_contra hmem
            rw [(NodeMap.get_eq_none_iff b.nodes j).mpr hmem] at hj
            exact Option.noConfusion hj
          rw [NodeMap.get_append_left _ _ _ (by rw [hkeysmod]; exact hjmem),
            NodeMap.get_modify]
          by_cases hjp : j = pid
          · subst hjp
            rw [if_pos rfl, hj]
            exact ⟨_, rfl, rfl⟩
          · rw [if_neg hjp, hj]
            exact ⟨n, rfl, rfl⟩
        have hchild := ih cs
          { title := b.title, max_depth := b.max_depth,
            nodes := NodeMap.modify b.nodes pid
              (fun n => { id := n.id, parent := n.parent, children := n.children ++ [c], title := n.title, body := n.body, node_type := n.node_type, placeholder := n.placeholder }) ++
              [(c, { id := c, parent := some pid, children := [], title := data.title, body := data.body, node_type := data.node_type, placeholder := data.placeholder })],
            root_nodes := b.root_nodes }
          (c + 1) (some c) (d + 1)
          (by omega)
          (by
            intro k hk
            simp only [NodeMap.keys_append, hkeysmod] at hk
            rcases List.mem_append.mp hk with h | h
            · exact Nat.lt_succ_of_lt (hkeys k h)
            · simp only [NodeMap.keys, List.map_cons, List.map_nil,
                List.mem_singleton] at h
              omega)
          (by
            intro pid' hpid'
            cases hpid'
            exact .step _ pid _ d hget1 rfl (hasDepth_mono hpres1 hdep))
          (by intro h; exact Option.noConfusion h)
          (by omega)
          (by
            show d + 1 + nestF cs ≤ b.max_depth
            omega)
          (by
            intro k n hkn
            simp only [List.length_append, List.length_cons, List.length_nil,
              NodeMap.length_modify]
            rw [NodeMap.get_append] at hkn
            split at hkn
            · rename_i hg
              cases hkn
              rw [NodeMap.get_modify] at hg
              rcases hgb : NodeMap.get b.nodes k with _ | w
              · rw [hgb] at hg
                exfalso
                split at hg
                · exact Option.noConfusion hg
                · exact Option.noConfusion hg
              · rw [hgb] at hg
                have hlen := hcl k w hgb
                split at hg
                · simp only [Option.map] at hg
                  cases hg
                  simp only [List.length_append, List.length_cons, List.length_nil]
                  omega
                · cases hg
                  omega
            · simp only [NodeMap.get] at hkn
              split at hkn
              · cases hkn
                simp
              · exact Option.noConfusion hkn)
          (by
            simp only [List.length_append, List.length_cons, List.length_nil,
              NodeMap.length_modify]
            omega)
          (by
            show List.length (NodeMap.modify b.nodes pid _ ++ [_]) + sizeF cs ≤ usizeMax
            simp only [List.length_append, List.length_cons, List.length_nil,
              NodeMap.length_modify, usizeMax]
            omega)
        rw [hchild]
        have hc2 : (relabelT c (NTree.node i data cs)).2 = c + 1 + sizeF cs := by
          rw [relabel_snd.1, hst]
          omega
        have hb2 : importedBook
            { title := b.title, max_depth := b.max_depth,
              nodes := NodeMap.modify b.nodes pid
                (fun n => { id := n.id, parent := n.parent, children := n.children ++ [c], title := n.title, body := n.body, node_type := n.node_type, placeholder := n.placeholder }) ++
                [(c, { id := c, parent := some pid, children := [], title := data.title, body := data.body, node_type := data.node_type, placeholder := data.placeholder })],
              root_nodes := b.root_nodes } (c + 1) (some c) cs =
            { title := b.title, max_depth := b.max_depth,
              nodes := NodeMap.modify b.nodes pid
                (fun n => { id := n.id, parent := n.parent, children := n.children ++ [c], title := n.title, body := n.body, node_type := n.node_type, placeholder := n.placeholder }) ++
                entriesT (some pid) (relabelT c (NTree.node i data cs)).1,
              root_nodes := b.root_nodes } := by
          unfold importedBook
          simp only [relabelT, entriesT]
          rw [NodeMap.modify_append_right _ _ _ _ hcmod]
          simp [NodeMap.modify, List.append_assoc]
        rw [hb2]
        simp only []
        have hpres2 : ∀ j n, NodeMap.get b.nodes j = some n →
            ∃ n', NodeMap.get (NodeMap.modify b.nodes pid
              (fun n => { id := n.id, parent := n.parent, children := n.children ++ [c], title := n.title, body := n.body, node_type := n.node_type, placeholder := n.placeholder }) ++
              entriesT (some pid) (relabelT c (NTree.node i data cs)).1) j =
              some n' ∧ n'.parent = n.parent := by
          intro j n hj
          have hjmem : j ∈ NodeMap.keys b.nodes := by
            by_contra hmem
            rw [(NodeMap.get_eq_none_iff b.nodes j).mpr hmem] at hj
            exact Option.noConfusion hj
          rw [NodeMap.get_append_left _ _ _ (by rw [hkeysmod]; exact hjmem),
            NodeMap.get_modify]
          by_cases hjp : j = pid
          · subst hjp
            rw [if_pos rfl, hj]
            exact ⟨_, rfl, rfl⟩
          · rw [if_neg hjp, hj]
            exact ⟨n, rfl, rfl⟩
        have hrest := ih rest
          { title := b.title, max_depth := b.max_depth,
            nodes := NodeMap.modify b.nodes pid
              (fun n => { id := n.id, parent := n.parent, children := n.children ++ [c], title := n.title, body := n.body, node_type := n.node_type, placeholder := n.placeholder }) ++
              entriesT (some pid) (relabelT c (NTree.node i data cs)).1,
            root_nodes := b.root_nodes }
          (c + 1 + sizeF cs) (some pid) d
          (by omega)
          (by
            intro k hk
            simp only [NodeMap.keys_append, hkeysmod] at hk
            rcases List.mem_append.mp hk with h | h
            · have := hkeys k h
              omega
            · rw [show NodeMap.keys (entriesT (some pid) (relabelT c (NTree.node i data cs)).1) =
                idsT (relabelT c (NTree.node i data cs)).1 from keys_entries.1 _ _,
                ids_relabel.1] at h
              rw [List.mem_range'] at h
              obtain ⟨j, hj, hkj⟩ := h
              rw [hst] at hj
              omega)
          (by
            intro pid' hpid'
            cases hpid'
            exact hasDepth_mono hpres2 hdep)
          (by intro h; exact Option.noConfusion h)
          (by omega)
          (by
            show d + nestF rest ≤ b.max_depth
            omega)
          (by
            intro k n hkn
            simp only [List.length_append, NodeMap.length_modify]
            rw [show (entriesT (some pid) (relabelT c (NTree.node i data cs)).1).length =
              sizeT (relabelT c (NTree.node i data cs)).1 from length_entries.1 _ _,
              size_relabel.1]
            rw [NodeMap.get_append] at hkn
            split at hkn
            · rename_i hg
              cases hkn
              rw [NodeMap.get_modify] at hg
              rcases hgb : NodeMap.get b.nodes k with _ | w
              · rw [hgb] at hg
                exfalso
                split at hg
                · exact Option.noConfusion hg
                · exact Option.noConfusion hg
              · rw [hgb] at hg
                have hlen := hcl k w hgb
                have hstp := sizeT_pos (NTree.node i data cs)
                split at hg
                · simp only [Option.map] at hg
                  cases hg
                  simp only [List.length_append, List.length_cons, List.length_nil]
                  omega
                · cases hg
                  omega
            · have := entries_childLen.1 _ _ _ _ hkn
              rw [size_relabel.1] at this
              omega)
          (by
            simp only [List.length_append, NodeMap.length_modify]
            rw [show (entriesT (some pid) (relabelT c (NTree.node i data cs)).1).length =
              sizeT (relabelT c (NTree.node i data cs)).1 from length_entries.1 _ _,
              size_relabel.1]
            omega)
          (by
            simp only [List.length_append, NodeMap.length_modify, usizeMax]
            rw [show (entriesT (some pid) (relabelT c (NTree.node i data cs)).1).length =
              sizeT (relabelT c (NTree.node i data cs)).1 from length_entries.1 _ _,
              size_relabel.1, hst]
            omega)
        rw [hrest]
        have hcnt : c + 1 + sizeF cs + sizeF rest = c + sizeF (NTree.node i data cs :: rest) := by
          rw [hsF]
          omega
        rw [hcnt]
        have hbooks : importedBook
            { title := b.title, max_depth := b.max_depth,
              nodes := NodeMap.modify b.nodes pid
                (fun n => { id := n.id, parent := n.parent, children := n.children ++ [c], title := n.title, body := n.body, node_type := n.node_type, placeholder := n.placeholder }) ++
                entriesT (some pid) (relabelT c (NTree.node i data cs)).1,
              root_nodes := b.root_nodes } (c + 1 + sizeF cs) (some pid) rest =
            importedBook b c (some pid) (NTree.node i data cs :: rest) := by
          unfold importedBook
          rw [← hc2]
          simp only [relabelF]
          simp only [entriesF, topIds, List.map_cons, NTree.rootId, relabelT]
          rw [NodeMap.modify_append_left _ _ _ _ (by rw [hkeysmod]; exact hpidmem),
            NodeMap.modify_modify_same,
            modify_funext _ _ _
              (fun n : TemplateNode => { id := n.id, parent := n.parent, children := n.children ++ (c :: topIds (relabelF (relabelT c (NTree.node i data cs)).2 rest).1), title := n.title, body := n.body, node_type := n.node_type, placeholder := n.placeholder })
              (fun v => by simp [topIds, relabelT])]
          simp [List.append_assoc, relabelT, topIds]
        rw [hbooks]



/-! ## Export of a represented aggregate -/

theorem covers_of_get : ∀ (fuel : Nat) (F : List NTree) (m : NodeMap) (p : Option Nat),
    sizeF F ≤ fuel →
    (idsF F).Nodup →
    (∀ k, k ∈ idsF F → NodeMap.get m k = NodeMap.get (entriesF p F) k) →
    ∀ t, t ∈ F → Covers m p t := by
  intro fuel
  induction fuel with
  | zero =>
    intro F m p hsz _ _ t ht
    cases F with
    | nil => cases ht
    | cons u us =>
      exfalso
      have := sizeT_pos u
      simp only [sizeF] at hsz
      omega
  | succ fl ih =>
    intro F m p hsz hnd hpt t ht
    cases F with
    | nil => cases ht
    | cons u us =>
      obtain ⟨i, data, cs⟩ := u
      have hndA := List.nodup_append.mp (show (idsT (NTree.node i data cs) ++ idsF us).Nodup from hnd)
      obtain ⟨hndT, hndUs, hdisj⟩ := hndA
      obtain ⟨hiNot, hndCs⟩ : i ∉ idsF cs ∧ (idsF cs).Nodup := by
        simpa [idsT] using hndT
      have hszs : 1 + sizeF cs + sizeF us ≤ fl + 1 := by
        simpa [sizeF, sizeT] using hsz
      rcases List.mem_cons.mp ht with rfl | hmem
      · refine Covers.node p i data cs ?_ ?_
        · have h1 := hpt i (by simp [idsF, idsT])
          rw [h1,
            show entriesF p (NTree.node i data cs :: us) =
              entriesT p (NTree.node i data cs) ++ entriesF p us from rfl,
            NodeMap.get_append_left _ _ _ (by rw [keys_entries.1]; simp [idsT])]
          simp [entriesT, NodeMap.get]
        · intro u' hu'
          refine ih cs m (some i) (by omega) hndCs ?_ u' hu'
          intro k hk
          have hki : ¬ k = i := fun he => hiNot (he ▸ hk)
          have h1 := hpt k (by simp [idsF, idsT, hk])
          rw [h1,
            show entriesF p (NTree.node i data cs :: us) =
              entriesT p (NTree.node i data cs) ++ entriesF p us from rfl,
            NodeMap.get_append_left _ _ _ (by rw [keys_entries.1]; simp [idsT, hk]),
            show entriesT p (NTree.node i data cs) =
              (i, { id := i, parent := p, children := topIds cs, title := data.title, body := data.body, node_type := data.node_type, placeholder := data.placeholder }) :: entriesF (some i) cs from rfl]
          simp [NodeMap.get, hki]
      · refine ih us m p (by have := sizeT_pos (NTree.node i data cs); simp only [sizeF] at hsz; omega) hndUs ?_ t hmem
        intro k hk
        have hkT : k ∉ idsT (NTree.node i data cs) := fun hin => hdisj hin hk
        have h1 := hpt k (by simp only [idsF, List.mem_append]; right; exact hk)
        rw [h1,
          show entriesF p (NTree.node i data cs :: us) =
            entriesT p (NTree.node i data cs) ++ entriesF p us from rfl,
          NodeMap.get_append_right _ _ _ (by rw [keys_entries.1]; exact hkT)]

theorem build_covers (m : NodeMap) : ∀ (fuel : Nat) (F : List NTree) (p : Option Nat),
    (∀ t ∈ F, Covers m p t) → nestF F ≤ fuel →
    (topIds F).filterMap (fun id => EjectService.build_tree_node m fuel id) = ejectF F := by
  intro fuel
  induction fuel with
  | zero =>
    intro F p hcov hnest
    cases F with
    | nil => rfl
    | cons t ts =>
      exfalso
      have := nestT_pos t
      simp only [nestF] at hnest
      omega
  | succ fl ih =>
    intro F p
    induction F with
    | nil => intro _ _; rfl
    | cons t ts ihF =>
      intro hcov hnest
      obtain ⟨i, data, cs⟩ := t
      have hct := hcov _ (List.mem_cons_self _ _)
      cases hct with
      | node _ _ _ _ hget hcs =>
        have hfl : nestF cs ≤ fl := by
          simp only [nestF, nestT] at hnest
          omega
        have hnts : nestF ts ≤ fl + 1 := by
          simp only [nestF] at hnest
          omega
        have hhead : EjectService.build_tree_node m (fl + 1) i =
            some (ejectT (NTree.node i data cs)) := by
          simp only [EjectService.build_tree_node, hget]
          rw [ih cs (some i) hcs hfl]
          rfl
        show (topIds (NTree.node i data cs :: ts)).filterMap
            (fun id => EjectService.build_tree_node m (fl + 1) id) = ejectF (NTree.node i data cs :: ts)
        rw [show topIds (NTree.node i data cs :: ts) = i :: topIds ts from rfl,
          List.filterMap_cons]
        simp only [hhead]
        rw [ihF (fun u hu => hcov u (List.mem_cons_of_mem _ hu)) hnts]
        rfl

theorem represents_length (b : TemplateBook) (F : List NTree)
    (hrep : Represents F b) : b.nodes.length = sizeF F := by
  obtain ⟨-, hpt, hndb, hndF⟩ := hrep
  have hndE : (NodeMap.keys (entriesF none F)).Nodup := by
    rw [keys_entries.2]
    exact hndF
  have hmem : ∀ k, k ∈ NodeMap.keys b.nodes ↔ k ∈ NodeMap.keys (entriesF none F) := by
    intro k
    constructor
    · intro h
      by_contra hne
      have h1 := (NodeMap.get_eq_none_iff (entriesF none F) k).mpr hne
      rw [← hpt k] at h1
      exact ((NodeMap.get_eq_none_iff b.nodes k).mp h1) h
    · intro h
      by_contra hne
      have h1 := (NodeMap.get_eq_none_iff b.nodes k).mpr hne
      rw [hpt k] at h1
      exact ((NodeMap.get_eq_none_iff (entriesF none F) k).mp h1) h
  have hlen : (NodeMap.keys b.nodes).length = (NodeMap.keys (entriesF none F)).length := by
    rw [← List.toFinset_card_of_nodup hndb, ← List.toFinset_card_of_nodup hndE]
    congr 1
    ext k
    simp only [List.mem_toFinset]
    exact hmem k
  have h2 : (NodeMap.keys b.nodes).length = b.nodes.length := by
    simp [NodeMap.keys]
  have h3 : (NodeMap.keys (entriesF none F)).length = sizeF F := by
    rw [keys_entries.2, idsF_length]
  omega

/-- Whole-aggregate export of a represented aggregate serializes its
forest exactly. -/
theorem build_tree_of_represents (b : TemplateBook) (F : List NTree)
    (hrep : Represents F b) :
    EjectService.build_tree b none =
      { title := b.title, max_depth := b.max_depth, nodes := ejectF F } := by
  have hcov : ∀ t ∈ F, Covers b.nodes none t :=
    covers_of_get (sizeF F) F b.nodes none (le_refl _) hrep.2.2.2 (fun k _ => hrep.2.1 k)
  have hlen := represents_length b F hrep
  have hnest : nestF F ≤ b.nodes.length + 1 := by
    have := nest_le_size.2 F
    omega
  show ({ title := b.title, max_depth := b.max_depth, nodes := b.root_nodes.filterMap (fun id => EjectService.build_tree_node b.nodes (b.nodes.length + 1) id) } : EjectTree) = _
  rw [hrep.1, build_covers b.nodes (b.nodes.length + 1) F none hcov hnest]



/-! ## C4: the export/import round trip -/

/-- C4 (amended): for every aggregate represented by a forest whose
nesting stays within both the aggregate's own `max_depth` and the import
codec's fixed recursion ceiling of 32 (and whose size fits `usize`),
importing the exported tree succeeds and yields an aggregate with the
same node count, the same root count, and the same parent/child shape:
the forest relabelled with fresh depth-first ids represents the result,
and relabelling preserves the identity-free shape — titles, bodies,
placeholders and types node-for-node in depth-first order.  (The original
claim, quantified over *every* aggregate, is refuted by
`roundtrip_fails_on_deep_aggregate`: an aggregate nested deeper than 32 —
legal when its own `max_depth` allows it — exports fine but fails to
import.) -/
theorem export_import_roundtrip (b : TemplateBook) (F : List NTree)
    (hrep : Represents F b) (h32 : nestF F ≤ 32) (hmax : nestF F ≤ b.max_depth)
    (hsz : sizeF F ≤ usizeMax) :
    ∃ b' : TemplateBook,
      EjectService.import_tree (EjectService.build_tree b none) = .ok b' ∧
      TemplateBook.node_count b' = TemplateBook.node_count b ∧
      b'.root_nodes.length = b.root_nodes.length ∧
      Represents (relabelF 0 F).1 b' ∧
      shapeF (relabelF 0 F).1 = shapeF F := by
  have hexp := build_tree_of_represents b F hrep
  have hlen := represents_length b F hrep
  have himp := import_children_ok (sizeF F) F (TemplateBook.new b.title b.max_depth) 0 none 0
      (le_refl _)
      (fun k hk => absurd hk (by simp [TemplateBook.new, NodeMap.keys]))
      (fun pid h => nomatch h)
      (fun _ => rfl)
      (by omega)
      (by simpa [TemplateBook.new] using hmax)
      (fun k n hg => by simp [TemplateBook.new, NodeMap.get] at hg)
      (by simp [TemplateBook.new])
      (by simpa [TemplateBook.new] using hsz)
  have hib : importedBook (TemplateBook.new b.title b.max_depth) 0 none F =
      { title := b.title, max_depth := b.max_depth, nodes := entriesF none (relabelF 0 F).1, root_nodes := topIds (relabelF 0 F).1 } := by
    simp [importedBook, TemplateBook.new]
  refine ⟨{ title := b.title, max_depth := b.max_depth, nodes := entriesF none (relabelF 0 F).1, root_nodes := topIds (relabelF 0 F).1 }, ?_, ?_, ?_, ?_, shape_relabel.2 F 0⟩
  · rw [hexp]
    show (EjectService.import_children (TemplateBook.new b.title b.max_depth) 0 none (ejectF F) 0).map Prod.fst = _
    rw [himp, hib]
    rfl
  · show (entriesF none (relabelF 0 F).1).length = b.nodes.length
    rw [length_entries.2, size_relabel.2, hlen]
  · show (topIds (relabelF 0 F).1).length = b.root_nodes.length
    rw [hrep.1]
    simp [topIds, length_relabelF]
  · refine ⟨rfl, fun k => rfl, ?_, ?_⟩
    · rw [keys_entries.2, ids_relabel.2]
      exact List.nodup_range' _ _
    · rw [ids_relabel.2]
      exact List.nodup_range' _ _

/-- C4 witness: the amended round-trip theorem applied to a concrete
one-node aggregate. -/
theorem export_import_roundtrip_witness :
    ∃ b' : TemplateBook,
      EjectService.import_tree (EjectService.build_tree rtDemoBook none) = .ok b' ∧
      TemplateBook.node_count b' = TemplateBook.node_count rtDemoBook ∧
      b'.root_nodes.length = rtDemoBook.root_nodes.length ∧
      Represents (relabelF 0 rtDemoF).1 b' ∧
      shapeF (relabelF 0 rtDemoF).1 = shapeF rtDemoF :=
  export_import_roundtrip rtDemoBook rtDemoF
    ⟨rfl, fun _ => rfl, by decide, by decide⟩ (by decide) (by decide) (by decide)



/-! ## Serialized-forest lemma kit -/

mutual

/-- Simultaneous structural induction over serialized trees and forests
(tree side). -/
theorem ejectInductionT {P : EjectTreeNode → Prop} {Q : List EjectTreeNode → Prop}
    (hnode : ∀ i ti ty bo ph cs, Q cs → P (.mk i ti ty bo ph cs)) (hnil : Q [])
    (hcons : ∀ t ts, P t → Q ts → Q (t :: ts)) : ∀ t : EjectTreeNode, P t
  | .mk i ti ty bo ph cs => hnode i ti ty bo ph cs (ejectInductionF hnode hnil hcons cs)

/-- Simultaneous structural induction over serialized trees and forests
(forest side). -/
theorem ejectInductionF {P : EjectTreeNode → Prop} {Q : List EjectTreeNode → Prop}
    (hnode : ∀ i ti ty bo ph cs, Q cs → P (.mk i ti ty bo ph cs)) (hnil : Q [])
    (hcons : ∀ t ts, P t → Q ts → Q (t :: ts)) : ∀ ts : List EjectTreeNode, Q ts
  | [] => hnil
  | t :: ts =>
    hcons t ts (ejectInductionT hnode hnil hcons t) (ejectInductionF hnode hnil hcons ts)

end

theorem sizeET_pos : ∀ t : EjectTreeNode, 1 ≤ sizeET t
  | .mk _ _ _ _ _ cs => by simp [sizeET]

theorem norm_size :
    (∀ t : EjectTreeNode, sizeT (normT t) = sizeET t) ∧
      (∀ ts : List EjectTreeNode, sizeF (normF ts) = sizeEF ts) := by
  refine ⟨ejectInductionT ?hnode ?hnil ?hcons, ejectInductionF ?hnode ?hnil ?hcons⟩
  case hnode => intro i ti ty bo ph cs ih; simp only [normT, sizeT, sizeET, ih]
  case hnil => rfl
  case hcons => intro t ts iht ihts; simp only [normF, sizeF, sizeEF, iht, ihts]

theorem norm_nest :
    (∀ t : EjectTreeNode, nestT (normT t) = nestET t) ∧
      (∀ ts : List EjectTreeNode, nestF (normF ts) = nestEF ts) := by
  refine ⟨ejectInductionT ?hnode ?hnil ?hcons, ejectInductionF ?hnode ?hnil ?hcons⟩
  case hnode => intro i ti ty bo ph cs ih; simp only [normT, nestT, nestET, ih]
  case hnil => rfl
  case hcons => intro t ts iht ihts; simp only [normF, nestF, nestEF, iht, ihts]

theorem sizeE_eject :
    (∀ t : NTree, sizeET (ejectT t) = sizeT t) ∧
      (∀ F : List NTree, sizeEF (ejectF F) = sizeF F) := by
  refine ⟨forestInductionT ?hnode ?hnil ?hcons, forestInductionF ?hnode ?hnil ?hcons⟩
  case hnode => intro i d cs ih; simp only [ejectT, sizeET, sizeT, ih]
  case hnil => rfl
  case hcons => intro t ts iht ihts; simp only [ejectF, sizeEF, sizeF, iht, ihts]

theorem nestE_eject :
    (∀ t : NTree, nestET (ejectT t) = nestT t) ∧
      (∀ F : List NTree, nestEF (ejectF F) = nestF F) := by
  refine ⟨forestInductionT ?hnode ?hnil ?hcons, forestInductionF ?hnode ?hnil ?hcons⟩
  case hnode => intro i d cs ih; simp only [ejectT, nestET, nestT, ih]
  case hnil => rfl
  case hcons => intro t ts iht ihts; simp only [ejectF, nestEF, nestF, iht, ihts]

theorem tagOk_typeTag (ty : NodeType) : tagOk (EjectService.typeTag ty) = true := by
  unfold tagOk
  rw [parse_typeTag]

theorem tagsOk_eject :
    (∀ t : NTree, tagsOkT (ejectT t) = true) ∧
      (∀ F : List NTree, tagsOkF (ejectF F) = true) := by
  refine ⟨forestInductionT ?hnode ?hnil ?hcons, forestInductionF ?hnode ?hnil ?hcons⟩
  case hnode =>
    intro i d cs ih
    simp only [ejectT, tagsOkT, ih, tagOk_typeTag, Bool.and_self]
  case hnil => rfl
  case hcons =>
    intro t ts iht ihts
    simp only [ejectF, tagsOkF, iht, ihts, Bool.and_self]

theorem parse_of_tagOk (s : String) (h : tagOk s = true) :
    EjectService.parse_import_type s = .ok (parseTag s) := by
  unfold tagOk at h
  unfold parseTag
  rcases hp : EjectService.parse_import_type s with e | ty
  · rw [hp] at h
    simp only [] at h
    exact Bool.noConfusion h
  · rfl

/-- Import ignores id strings and only looks at type tags through the
codec: a valid-tag serialized forest imports exactly like the export
image of its normalisation. -/
theorem import_norm : ∀ (fuel : Nat) (ts : List EjectTreeNode) (b : TemplateBook)
    (c : Nat) (p : Option Nat) (d : Nat),
    sizeEF ts ≤ fuel → tagsOkF ts = true →
    EjectService.import_children b c p ts d =
      EjectService.import_children b c p (ejectF (normF ts)) d := by
  intro fuel
  induction fuel with
  | zero =>
    intro ts b c p d hsz htags
    cases ts with
    | nil => rfl
    | cons t ts =>
      exfalso
      have := sizeET_pos t
      simp only [sizeEF] at hsz
      omega
  | succ fl ih =>
    intro ts b c p d hsz htags
    cases ts with
    | nil => rfl
    | cons t ts =>
      obtain ⟨i, ti, ty, bo, ph, cs⟩ := t
      simp only [sizeEF, sizeET] at hsz
      simp only [tagsOkF, tagsOkT, Bool.and_eq_true] at htags
      obtain ⟨⟨htagty, htagcs⟩, htagts⟩ := htags
      have hhead : EjectService.import_tree_node b c p (.mk i ti ty bo ph cs) d =
          EjectService.import_tree_node b c p (ejectT (normT (.mk i ti ty bo ph cs))) d := by
        show _ = EjectService.import_tree_node b c p
          (.mk (idText 0) ti (EjectService.typeTag (parseTag ty)) bo ph (ejectF (normF cs))) d
        simp only [EjectService.import_tree_node]
        by_cases hd : d ≥ EjectService.IMPORT_MAX_RECURSION
        · rw [if_pos hd, if_pos hd]
        · rw [if_neg hd, if_neg hd, parse_of_tagOk ty htagty, parse_typeTag]
          simp only []
          rcases hadd : TemplateBook.add_node b c { parent := p, title := ti, node_type := parseTag ty, body := bo, placeholder := ph, position := usizeMax } with ⟨r, b'⟩
          cases r with
          | error e => rfl
          | ok nid =>
            simp only []
            exact ih cs b' (c + 1) (some nid) (d + 1) (by omega) htagcs
      rw [show ejectF (normF (EjectTreeNode.mk i ti ty bo ph cs :: ts)) =
        ejectT (normT (.mk i ti ty bo ph cs)) :: ejectF (normF ts) from rfl]
      simp only [EjectService.import_children]
      rw [← hhead]
      rcases hn : EjectService.import_tree_node b c p (.mk i ti ty bo ph cs) d with e | bc
      · simp only []
      · obtain ⟨b', c'⟩ := bc
        simp only []
        exact ih ts b' c' p d (by have := sizeET_pos (EjectTreeNode.mk i ti ty bo ph cs); simp only [sizeET] at this; omega) (by rw [htagts])

/-- Importing a valid-tag serialized forest that fits the ceiling and the
aggregate's own depth limit computes `importedBook` of its normalisation. -/
theorem import_children_ok_eject (ts : List EjectTreeNode) (b : TemplateBook)
    (c : Nat) (parent : Option Nat) (d : Nat)
    (htags : tagsOkF ts = true)
    (hkeys : ∀ k, k ∈ NodeMap.keys b.nodes → k < c)
    (hparS : ∀ pid, parent = some pid → HasDepth b.nodes pid d)
    (hparN : parent = none → d = 0)
    (h32 : d + nestEF ts ≤ 32)
    (hmax : d + nestEF ts ≤ b.max_depth)
    (hcl : ∀ k n, NodeMap.get b.nodes k = some n → n.children.length ≤ b.nodes.length)
    (hrl : b.root_nodes.length ≤ b.nodes.length)
    (husz : b.nodes.length + sizeEF ts ≤ usizeMax) :
    EjectService.import_children b c parent ts d =
      .ok (importedBook b c parent (normF ts), c + sizeEF ts) := by
  rw [import_norm (sizeEF ts) ts b c parent d (le_refl _) htags]
  have h1 := import_children_ok (sizeF (normF ts)) (normF ts) b c parent d
    (le_refl _) hkeys hparS hparN
    (by rw [norm_nest.2]; exact h32)
    (by rw [norm_nest.2]; exact hmax)
    hcl hrl
    (by rw [norm_size.2]; exact husz)
  rw [h1, norm_size.2]

/-- Structural facts about the aggregate produced by a successful import
step: size, key freshness, parent-pointer preservation, and the child- and
root-list bounds carried by the import invariant. -/
theorem importedBook_invariants (b : TemplateBook) (c : Nat) (parent : Option Nat)
    (F : List NTree)
    (hkeys : ∀ k, k ∈ NodeMap.keys b.nodes → k < c)
    (hcl : ∀ k n, NodeMap.get b.nodes k = some n → n.children.length ≤ b.nodes.length)
    (hrl : b.root_nodes.length ≤ b.nodes.length) :
    (importedBook b c parent F).title = b.title ∧
    (importedBook b c parent F).max_depth = b.max_depth ∧
    (importedBook b c parent F).nodes.length = b.nodes.length + sizeF F ∧
    (∀ k, k ∈ NodeMap.keys (importedBook b c parent F).nodes → k < c + sizeF F) ∧
    (∀ j n, NodeMap.get b.nodes j = some n →
      ∃ n', NodeMap.get (importedBook b c parent F).nodes j = some n' ∧ n'.parent = n.parent) ∧
    (∀ k n, NodeMap.get (importedBook b c parent F).nodes k = some n →
      n.children.length ≤ (importedBook b c parent F).nodes.length) ∧
    (importedBook b c parent F).root_nodes.length ≤ (importedBook b c parent F).nodes.length := by
  have hElen : ∀ p' : Option Nat, (entriesF p' (relabelF c F).1).length = sizeF F := by
    intro p'
    rw [length_entries.2, size_relabel.2]
  have hEkeys : ∀ p' : Option Nat,
      NodeMap.keys (entriesF p' (relabelF c F).1) = List.range' c (sizeF F) := by
    intro p'
    rw [keys_entries.2, ids_relabel.2]
  have hEk_lt : ∀ (p' : Option Nat) (k : Nat),
      k ∈ NodeMap.keys (entriesF p' (relabelF c F).1) → k < c + sizeF F := by
    intro p' k hk
    rw [hEkeys p', List.mem_range'] at hk
    obtain ⟨j, hj, hkj⟩ := hk
    omega
  have hEchild : ∀ (p' : Option Nat) (k : Nat) (n : TemplateNode),
      NodeMap.get (entriesF p' (relabelF c F).1) k = some n →
      n.children.length ≤ sizeF F := by
    intro p' k n hg
    have := entries_childLen.2 _ _ _ _ hg
    rw [size_relabel.2] at this
    exact this
  have htop : (topIds (relabelF c F).1).length = F.length := by
    simp [topIds, length_relabelF]
  have hFsz := length_le_sizeF F
  rcases parent with _ | pid
  · have hB : importedBook b c none F =
        { title := b.title, max_depth := b.max_depth,
          nodes := b.nodes ++ entriesF none (relabelF c F).1,
          root_nodes := b.root_nodes ++ topIds (relabelF c F).1 } := rfl
    rw [hB]
    refine ⟨rfl, rfl, ?_, ?_, ?_, ?_, ?_⟩
    · simp only [List.length_append, hElen none]
    · intro k hk
      rw [NodeMap.keys_append] at hk
      rcases List.mem_append.mp hk with h | h
      · have := hkeys k h
        omega
      · exact hEk_lt none k h
    · intro j n hj
      have hjmem : j ∈ NodeMap.keys b.nodes := by
        by_contra hmem
        rw [(NodeMap.get_eq_none_iff b.nodes j).mpr hmem] at hj
        exact Option.noConfusion hj
      rw [NodeMap.get_append_left _ _ _ hjmem]
      exact ⟨n, hj, rfl⟩
    · intro k n hkn
      simp only [List.length_append, hElen none]
      rw [NodeMap.get_append] at hkn
      split at hkn
      · rename_i hg
        cases hkn
        have := hcl k _ hg
        omega
      · have := hEchild none k n hkn
        omega
    · simp only [List.length_append, hElen none, htop]
      omega
  · have hB : importedBook b c (some pid) F =
        { title := b.title, max_depth := b.max_depth,
          nodes := NodeMap.modify b.nodes pid (fun n => { id := n.id, parent := n.parent, children := n.children ++ topIds (relabelF c F).1, title := n.title, body := n.body, node_type := n.node_type, placeholder := n.placeholder }) ++ entriesF (some pid) (relabelF c F).1,
          root_nodes := b.root_nodes } := rfl
    rw [hB]
    refine ⟨rfl, rfl, ?_, ?_, ?_, ?_, ?_⟩
    · simp only [List.length_append, NodeMap.length_modify, hElen (some pid)]
    · intro k hk
      rw [NodeMap.keys_append, NodeMap.keys_modify] at hk
      rcases List.mem_append.mp hk with h | h
      · have := hkeys k h
        omega
      · exact hEk_lt (some pid) k h
    · intro j n hj
      have hjmem : j ∈ NodeMap.keys b.nodes := by
        by_contra hmem
        rw [(NodeMap.get_eq_none_iff b.nodes j).mpr hmem] at hj
        exact Option.noConfusion hj
      rw [NodeMap.get_append_left _ _ _ (by rw [NodeMap.keys_modify]; exact hjmem),
        NodeMap.get_modify]
      by_cases hjp : j = pid
      · subst hjp
        rw [if_pos rfl, hj]
        exact ⟨_, rfl, rfl⟩
      · rw [if_neg hjp, hj]
        exact ⟨n, rfl, rfl⟩
    · intro k n hkn
      simp only [List.length_append, NodeMap.length_modify, hElen (some pid)]
      rw [NodeMap.get_append] at hkn
      split at hkn
      · rename_i hg
        cases hkn
        rw [NodeMap.get_modify] at hg
        rcases hgb : NodeMap.get b.nodes k with _ | w
        · rw [hgb] at hg
          exfalso
          split at hg
          · exact Option.noConfusion hg
          · exact Option.noConfusion hg
        · rw [hgb] at hg
          have hlenw := hcl k w hgb
          split at hg
          · simp only [Option.map] at hg
            cases hg
            simp only [List.length_append, htop]
            omega
          · cases hg
            omega
      · have := hEchild (some pid) k n hkn
        omega
    · simp only [List.length_append, NodeMap.length_modify, hElen (some pid)]
      omega

/-- Once the remaining serialized nesting overruns the import recursion
ceiling — and the target aggregate's own `max_depth` is at least the
ceiling, so its depth check cannot fail first — the import loop fails
with the fixed nesting-depth error. -/
theorem import_children_deep_fails : ∀ (fuel : Nat) (ts : List EjectTreeNode)
    (b : TemplateBook) (c : Nat) (parent : Option Nat) (d : Nat),
    sizeEF ts ≤ fuel →
    tagsOkF ts = true →
    32 < d + nestEF ts →
    d ≤ 32 →
    32 ≤ b.max_depth →
    (∀ k, k ∈ NodeMap.keys b.nodes → k < c) →
    (∀ pid, parent = some pid → HasDepth b.nodes pid d) →
    (parent = none → d = 0) →
    (∀ k n, NodeMap.get b.nodes k = some n → n.children.length ≤ b.nodes.length) →
    b.root_nodes.length ≤ b.nodes.length →
    b.nodes.length + sizeEF ts ≤ usizeMax →
    EjectService.import_children b c parent ts d =
      .error (.ImportInvalidType "maximum import nesting depth exceeded") := by
  intro fuel
  induction fuel with
  | zero =>
    intro ts b c parent d hsz htags hdeep hd32 hmax hkeys hparS hparN hcl hrl husz
    exfalso
    cases ts with
    | nil =>
      simp only [nestEF] at hdeep
      omega
    | cons t rest =>
      have := sizeET_pos t
      simp only [sizeEF] at hsz
      omega
  | succ fl ih =>
    intro ts b c parent d hsz htags hdeep hd32 hmax hkeys hparS hparN hcl hrl husz
    cases ts with
    | nil =>
      exfalso
      simp only [nestEF] at hdeep
      omega
    | cons t rest =>
      obtain ⟨i, ti, ty, bo, ph, cs⟩ := t
      simp only [sizeEF, sizeET] at hsz husz
      simp only [tagsOkF, tagsOkT, Bool.and_eq_true] at htags
      obtain ⟨⟨htagty, htagcs⟩, htagrest⟩ := htags
      have hdeep' : 32 < d + max (1 + nestEF cs) (nestEF rest) := by
        simpa only [nestEF, nestET] using hdeep
      simp only [EjectService.import_children]
      by_cases hdge : d ≥ EjectService.IMPORT_MAX_RECURSION
      · have hhead : EjectService.import_tree_node b c parent (.mk i ti ty bo ph cs) d =
            .error (.ImportInvalidType "maximum import nesting depth exceeded") := by
          simp only [EjectService.import_tree_node]
          rw [if_pos hdge]
        rw [hhead]
      · have hdlt : d < 32 := by
          simp only [EjectService.IMPORT_MAX_RECURSION] at hdge
          omega
        have hcfresh : c ∉ NodeMap.keys b.nodes := fun hmem => absurd (hkeys c hmem) (by omega)
        by_cases hA : 32 < d + (1 + nestEF cs)
        · -- the head subtree itself overruns the ceiling
          rcases parent with _ | pid
          · have hd0 : d = 0 := hparN rfl
            subst hd0
            have hrlen : b.root_nodes.length ≤ usizeMax := by omega
            have hb1 := add_node_ok_root b c
              { parent := none, title := ti, node_type := parseTag ty, body := bo, placeholder := ph, position := usizeMax }
              rfl (by omega)
            rw [show min usizeMax b.root_nodes.length = b.root_nodes.length from
              Nat.min_eq_right hrlen, List.insertIdx_length_self,
              NodeMap.insert_of_not_mem _ _ _ hcfresh] at hb1
            rw [show TemplateBook.newNode c
                { parent := none, title := ti, node_type := parseTag ty, body := bo, placeholder := ph, position := usizeMax } =
                { id := c, parent := none, children := [], title := ti, body := bo, node_type := parseTag ty, placeholder := ph } from rfl] at hb1
            have hget1 : NodeMap.get (b.nodes ++ [(c, { id := c, parent := none, children := [], title := ti, body := bo, node_type := parseTag ty, placeholder := ph })]) c = some { id := c, parent := none, children := [], title := ti, body := bo, node_type := parseTag ty, placeholder := (ph : Option String) } := by
              rw [NodeMap.get_append_right _ _ _ hcfresh]
              simp [NodeMap.get]
            have hchild := ih cs
              { title := b.title, max_depth := b.max_depth,
                nodes := b.nodes ++ [(c, { id := c, parent := none, children := [], title := ti, body := bo, node_type := parseTag ty, placeholder := ph })],
                root_nodes := b.root_nodes ++ [c] }
              (c + 1) (some c) 1
              (by omega)
              htagcs
              (by omega)
              (by omega)
              hmax
              (by
                intro k hk
                simp only [NodeMap.keys_append] at hk
                rcases List.mem_append.mp hk with h | h
                · exact Nat.lt_succ_of_lt (hkeys k h)
                · simp only [NodeMap.keys, List.map_cons, List.map_nil,
                    List.mem_singleton] at h
                  omega)
              (by
                intro pid' hpid'
                cases hpid'
                exact .root _ _ hget1 rfl)
              (by intro h; exact Option.noConfusion h)
              (by
                intro k n hkn
                simp only [List.length_append, List.length_cons, List.length_nil]
                rw [NodeMap.get_append] at hkn
                split at hkn
                · rename_i hg
                  cases hkn
                  have := hcl k _ hg
                  omega
                · simp only [NodeMap.get] at hkn
                  split at hkn
                  · cases hkn
                    simp
                  · exact Option.noConfusion hkn)
              (by
                simp only [List.length_append, List.length_cons, List.length_nil]
                omega)
              (by
                show List.length (b.nodes ++ [_]) + sizeEF cs ≤ usizeMax
                simp only [List.length_append, List.length_cons, List.length_nil]
                omega)
            have hhead : EjectService.import_tree_node b c none (.mk i ti ty bo ph cs) 0 =
                .error (.ImportInvalidType "maximum import nesting depth exceeded") := by
              simp only [EjectService.import_tree_node]
              rw [if_neg hdge, parse_of_tagOk ty htagty]
              simp only []
              rw [hb1]
              simp only [Nat.zero_add]
              exact hchild
            rw [hhead]
          · have hdep : HasDepth b.nodes pid d := hparS pid rfl
            have hd1 : 1 ≤ d := hasDepth_ge_one hdep
            have hpidmem : pid ∈ NodeMap.keys b.nodes := hasDepth_mem_keys hdep
            have hdof : TemplateBook.depth_of b pid = d := depth_of_of_hasDepth hdep (by omega)
            obtain ⟨np, hnp⟩ : ∃ np, NodeMap.get b.nodes pid = some np := by
              cases hdep with
              | root _ n hget _ => exact ⟨n, hget⟩
              | step _ _ n _ hget _ _ => exact ⟨n, hget⟩
            have hnplen : np.children.length ≤ usizeMax := by
              have := hcl pid np hnp
              omega
            have hb1 := add_node_ok_some b c
              { parent := some pid, title := ti, node_type := parseTag ty, body := bo, placeholder := ph, position := usizeMax }
              pid rfl (hasDepth_containsKey hdep)
              (by
                rw [hdof, Nat.mod_eq_of_lt (by omega : d + 1 < 256)]
                omega)
            rw [show TemplateBook.newNode c
                { parent := some pid, title := ti, node_type := parseTag ty, body := bo, placeholder := ph, position := usizeMax } =
                { id := c, parent := some pid, children := [], title := ti, body := bo, node_type := parseTag ty, placeholder := ph } from rfl,
              NodeMap.insert_of_not_mem _ _ _ hcfresh,
              NodeMap.modify_append_left _ _ _ _ hpidmem,
              modify_congr_of_get b.nodes pid np _
                (fun n => { id := n.id, parent := n.parent, children := n.children ++ [c], title := n.title, body := n.body, node_type := n.node_type, placeholder := n.placeholder })
                hnp (add_child_usizeMax np c hnplen)] at hb1
            have hkeysmod : NodeMap.keys (NodeMap.modify b.nodes pid
                (fun n => { id := n.id, parent := n.parent, children := n.children ++ [c], title := n.title, body := n.body, node_type := n.node_type, placeholder := n.placeholder })) =
                NodeMap.keys b.nodes := NodeMap.keys_modify _ _ _
            have hcmod : c ∉ NodeMap.keys (NodeMap.modify b.nodes pid
                (fun n => { id := n.id, parent := n.parent, children := n.children ++ [c], title := n.title, body := n.body, node_type := n.node_type, placeholder := n.placeholder })) := by
              rw [hkeysmod]
              exact hcfresh
            have hget1 : NodeMap.get (NodeMap.modify b.nodes pid
                (fun n => { id := n.id, parent := n.parent, children := n.children ++ [c], title := n.title, body := n.body, node_type := n.node_type, placeholder := n.placeholder }) ++
                [(c, { id := c, parent := some pid, children := [], title := ti, body := bo, node_type := parseTag ty, placeholder := ph })]) c =
                some { id := c, parent := some pid, children := [], title := ti, body := bo, node_type := parseTag ty, placeholder := (ph : Option String) } := by
              rw [NodeMap.get_append_right _ _ _ hcmod]
              simp [NodeMap.get]
            have hpres1 : ∀ j n, NodeMap.get b.nodes j = some n →
                ∃ n', NodeMap.get (NodeMap.modify b.nodes pid
                  (fun n => { id := n.id, parent := n.parent, children := n.children ++ [c], title := n.title, body := n.body, node_type := n.node_type, placeholder := n.placeholder }) ++
                  [(c, { id := c, parent := some pid, children := [], title := ti, body := bo, node_type := parseTag ty, placeholder := ph })]) j =
                  some n' ∧ n'.parent = n.parent := by
              intro j n hj
              have hjmem : j ∈ NodeMap.keys b.nodes := by
                by_contra hmem
                rw [(NodeMap.get_eq_none_iff b.nodes j).mpr hmem] at hj
                exact Option.noConfusion hj
              rw [NodeMap.get_append_left _ _ _ (by rw [hkeysmod]; exact hjmem),
                NodeMap.get_modify]
              by_cases hjp : j = pid
              · subst hjp
                rw [if_pos rfl, hj]
                exact ⟨_, rfl, rfl⟩
              · rw [if_neg hjp, hj]
                exact ⟨n, rfl, rfl⟩
            have hchild := ih cs
              { title := b.title, max_depth := b.max_depth,
                nodes := NodeMap.modify b.nodes pid
                  (fun n => { id := n.id, parent := n.parent, children := n.children ++ [c], title := n.title, body := n.body, node_type := n.node_type, placeholder := n.placeholder }) ++
                  [(c, { id := c, parent := some pid, children := [], title := ti, body := bo, node_type := parseTag ty, placeholder := ph })],
                root_nodes := b.root_nodes }
              (c + 1) (some c) (d + 1)
              (by omega)
              htagcs
              (by omega)
              (by omega)
              hmax
              (by
                intro k hk
                simp only [NodeMap.keys_append, hkeysmod] at hk
                rcases List.mem_append.mp hk with h | h
                · exact Nat.lt_succ_of_lt (hkeys k h)
                · simp only [NodeMap.keys, List.map_cons, List.map_nil,
                    List.mem_singleton] at h
                  omega)
              (by
                intro pid' hpid'
                cases hpid'
                exact .step _ pid _ d hget1 rfl (hasDepth_mono hpres1 hdep))
              (by intro h; exact Option.noConfusion h)
              (by
                intro k n hkn
                simp only [List.length_append, List.length_cons, List.length_nil,
                  NodeMap.length_modify]
                rw [NodeMap.get_append] at hkn
                split at hkn
                · rename_i hg
                  cases hkn
                  rw [NodeMap.get_modify] at hg
                  rcases hgb : NodeMap.get b.nodes k with _ | w
                  · rw [hgb] at hg
                    exfalso
                    split at hg
                    · exact Option.noConfusion hg
                    · exact Option.noConfusion hg
                  · rw [hgb] at hg
                    have hlenw := hcl k w hgb
                    split at hg
                    · simp only [Option.map] at hg
                      cases hg
                      simp only [List.length_append, List.length_cons, List.length_nil]
                      omega
                    · cases hg
                      omega
                · simp only [NodeMap.get] at hkn
                  split at hkn
                  · cases hkn
                    simp
                  · exact Option.noConfusion hkn)
              (by
                simp only [List.length_append, List.length_cons, List.length_nil,
                  NodeMap.length_modify]
                omega)
              (by
                show List.length (NodeMap.modify b.nodes pid _ ++ [_]) + sizeEF cs ≤ usizeMax
                simp only [List.length_append, List.length_cons, List.length_nil,
                  NodeMap.length_modify]
                omega)
            have hhead : EjectService.import_tree_node b c (some pid) (.mk i ti ty bo ph cs) d =
                .error (.ImportInvalidType "maximum import nesting depth exceeded") := by
              simp only [EjectService.import_tree_node]
              rw [if_neg hdge, parse_of_tagOk ty htagty]
              simp only []
              rw [hb1]
              simp only []
              exact hchild
            rw [hhead]
        · -- the head fits within the ceiling; a later sibling overruns it
          have hBrest : 32 < d + nestEF rest := by omega
          have hok1 := import_children_ok_eject [EjectTreeNode.mk i ti ty bo ph cs] b c parent d
            (by simp [tagsOkF, tagsOkT, htagty, htagcs])
            hkeys hparS hparN
            (by simp only [nestEF, nestET, Nat.max_zero]; omega)
            (by simp only [nestEF, nestET, Nat.max_zero]; omega)
            hcl hrl
            (by simp only [sizeEF, sizeET]; omega)
          have hnode1 : EjectService.import_tree_node b c parent (.mk i ti ty bo ph cs) d =
              .ok (importedBook b c parent (normF [EjectTreeNode.mk i ti ty bo ph cs]), c + sizeEF [EjectTreeNode.mk i ti ty bo ph cs]) := by
            simp only [EjectService.import_children] at hok1
            rcases hn : EjectService.import_tree_node b c parent (.mk i ti ty bo ph cs) d with e | bc
            · rw [hn] at hok1
              simp only [] at hok1
              exact hok1
            · obtain ⟨b', c'⟩ := bc
              rw [hn] at hok1
              simp only [EjectService.import_children] at hok1
              exact hok1
          rw [hnode1]
          simp only []
          obtain ⟨hIti, hImax, hIlen, hIkeys, hIpres, hIcl, hIrl⟩ :=
            importedBook_invariants b c parent (normF [EjectTreeNode.mk i ti ty bo ph cs]) hkeys hcl hrl
          exact ih rest (importedBook b c parent (normF [EjectTreeNode.mk i ti ty bo ph cs]))
            (c + sizeEF [EjectTreeNode.mk i ti ty bo ph cs]) parent d
            (by omega)
            htagrest
            hBrest
            hd32
            (by rw [hImax]; exact hmax)
            (by
              intro k hk
              have h1 := hIkeys k hk
              rw [norm_size.2] at h1
              exact h1)
            (fun pid h => hasDepth_mono hIpres (hparS pid h))
            hparN
            hIcl
            hIrl
            (by
              rw [hIlen, norm_size.2]
              simp only [sizeEF, sizeET]
              omega)

/-- C4 counterexample: an aggregate nested deeper than the import
recursion ceiling (a 40-level chain, legal under its own `max_depth` of
40) exports fine, but its export image fails to import — the
unrestricted round-trip claim is false. -/
theorem roundtrip_fails_on_deep_aggregate :
    EjectService.import_tree (EjectService.build_tree deepBook none) =
      .error (.ImportInvalidType "maximum import nesting depth exceeded") := by
  rw [build_tree_of_represents deepBook [chainN 39] ⟨rfl, fun _ => rfl, by decide, by decide⟩]
  show (EjectService.import_children (TemplateBook.new deepBook.title deepBook.max_depth) 0 none (ejectF [chainN 39]) 0).map Prod.fst = _
  rw [import_children_deep_fails (sizeEF (ejectF [chainN 39])) (ejectF [chainN 39])
    (TemplateBook.new deepBook.title deepBook.max_depth) 0 none 0
    (le_refl _)
    (tagsOk_eject.2 [chainN 39])
    (by rw [nestE_eject.2]; decide)
    (by decide)
    (by decide)
    (fun k hk => absurd hk (by simp [TemplateBook.new, NodeMap.keys]))
    (fun pid h => nomatch h)
    (fun _ => rfl)
    (fun k n hg => by simp [TemplateBook.new, NodeMap.get] at hg)
    (by simp [TemplateBook.new])
    (by rw [sizeE_eject.2]; decide)]
  rfl



/-! ## C5: the import recursion ceiling -/

/-- C5 (amended): the import codec tracks recursion depth explicitly and
fails with the fixed nesting error `ImportInvalidType "maximum import
nesting depth exceeded"` — a kind distinct from the aggregate's own
`Domain (MaxDepthExceeded …)` depth-limit error — for *every* tree whose
nesting exceeds the ceiling of 32, whose type tags are recognised, and
whose declared maximum depth is at least the ceiling (with the node count
fitting `usize`).  The qualification on the declared maximum depth is
necessary: the original claim's "regardless of the maximum depth the
imported tree declares" is refuted by
`import_deep_tree_low_max_domain_error`, where a declared maximum depth
of 10 makes a 40-level import fail with the Domain depth error instead.
(The source has no dedicated `RecursionLimit` variant; the ceiling reuses
`ImportInvalidType` with a fixed message.) -/
theorem import_deep_tree_fails (t : EjectTree)
    (htags : tagsOkF t.nodes = true)
    (hdeep : 32 < nestEF t.nodes)
    (hmax : 32 ≤ t.max_depth)
    (hsz : sizeEF t.nodes ≤ usizeMax) :
    EjectService.import_tree t =
      .error (.ImportInvalidType "maximum import nesting depth exceeded") ∧
    ∀ nid bound, (AppError.ImportInvalidType "maximum import nesting depth exceeded") ≠
      .Domain (.MaxDepthExceeded nid bound) := by
  constructor
  · show (EjectService.import_children (TemplateBook.new t.title t.max_depth) 0 none t.nodes 0).map Prod.fst = _
    rw [import_children_deep_fails (sizeEF t.nodes) t.nodes
      (TemplateBook.new t.title t.max_depth) 0 none 0
      (le_refl _) htags (by omega) (by omega)
      (by simpa [TemplateBook.new] using hmax)
      (fun k hk => absurd hk (by simp [TemplateBook.new, NodeMap.keys]))
      (fun pid h => nomatch h)
      (fun _ => rfl)
      (fun k n hg => by simp [TemplateBook.new, NodeMap.get] at hg)
      (by simp [TemplateBook.new])
      (by simpa [TemplateBook.new] using hsz)]
    rfl
  · intro nid bound h
    exact AppError.noConfusion h

/-- C5 witness: importing a 40-level chain that declares maximum depth 40
fails with the recursion-ceiling error. -/
theorem import_deep_tree_fails_witness :
    EjectService.import_tree { title := "w", max_depth := 40, nodes := [chainTree 39] } =
      .error (.ImportInvalidType "maximum import nesting depth exceeded") ∧
    ∀ nid bound, (AppError.ImportInvalidType "maximum import nesting depth exceeded") ≠
      .Domain (.MaxDepthExceeded nid bound) :=
  import_deep_tree_fails { title := "w", max_depth := 40, nodes := [chainTree 39] }
    (by decide) (by decide) (by decide) (by decide)

set_option maxHeartbeats 4000000 in
/-- C5 counterexample to "regardless of the maximum depth the imported
tree declares for itself": the same 40-level chain declaring maximum
depth 10 fails with the aggregate's own Domain depth-limit error — the
eleventh node (id 10) overruns `max_depth` 10 before the recursion
ceiling of 32 is ever reached. -/
theorem import_deep_tree_low_max_domain_error :
    EjectService.import_tree { title := "w", max_depth := 10, nodes := [chainTree 39] } =
      .error (.Domain (.MaxDepthExceeded 10 10)) := by decide

end Outline
